import Mathlib

/-!
# Tic-Tac-Toe (`src/tictactoe.js`)

A shallow embedding of the game script: the module-level game state, the two
win detectors, the click handler, the AI reply and the minimax search, followed
by the properties proved about them.

JavaScript values are embedded as follows.

* A board slot read yields `''`, `'X'`, `'O'` or `undefined`; `Cell` has one
  constructor for each.  The script only ever stores `''`, `'X'` and `'O'`, so
  inside an array `Cell.undef` stands for a hole (a slot that was never
  written), and it is also what a read past the end returns.
* `PLAYER_X` / `PLAYER_O` are the two values of `Player`.
* Mutable module variables become the fields of `State`; every function that
  mutates them takes a `State` and returns the new one.
* `minimax` mutates the array it is given; the embedding threads that array
  through the search and returns it next to the result.
* The page itself is reduced to what the game logic drives: the status text and
  the `disabled` flag of the nine cell buttons.  The three control buttons are
  not modelled.

The file has two parts.  The definitions come first: the embedding of the
script, the reference game value `V`, and the bounded searches used to bound `V`
on concrete positions.  The theorems follow.
-/

namespace TicTacToe

/-! ## Data model -/

/-- What reading a board slot can yield: `undefined`, `''`, `'X'` or `'O'`. -/
inductive Cell where
  | undef
  | empty
  | X
  | O
  deriving DecidableEq

/-- The two player constants `PLAYER_X` and `PLAYER_O`. -/
inductive Player where
  | X
  | O
  deriving DecidableEq

/-- The string a player constant denotes, as a board cell. -/
def Player.toCell : Player → Cell
  | Player.X => Cell.X
  | Player.O => Cell.O

/-- The text of a player constant, used in status messages. -/
def Player.toStr : Player → String
  | Player.X => "X"
  | Player.O => "O"

/-- JavaScript truthiness of a slot value: only non-empty strings are truthy. -/
def Cell.truthy : Cell → Bool
  | Cell.X => true
  | Cell.O => true
  | _ => false

/-- The board array. -/
abbrev Board := List Cell

/-- Reading `b[i]` for a non-negative integer index: a hole or an index past the
end reads as `undefined`. -/
def getCell (b : Board) (i : Nat) : Cell :=
  b.getD i Cell.undef

/-- Writing `b[i] = v` for a non-negative integer index: an index past the end
grows the array, leaving holes in between. -/
def arraySet (b : Board) (i : Nat) (v : Cell) : Board :=
  if i < b.length then b.set i v
  else b ++ List.replicate (i - b.length) Cell.undef ++ [v]

/-- The table `WIN_COMBOS`: rows, columns, diagonals. -/
def WIN_COMBOS : List (Nat × Nat × Nat) :=
  [(0, 1, 2), (3, 4, 5), (6, 7, 8),
   (0, 3, 6), (1, 4, 7), (2, 5, 8),
   (0, 4, 8), (2, 4, 6)]

/-- The game mode: `'pvp'` or `'ai'` (`null` is `none` in `State.mode`). -/
inductive Mode where
  | pvp
  | ai
  deriving DecidableEq

/-- The module-level variables of the script, together with the two pieces of
the page they drive: the status text and the `disabled` flag of each rendered
cell button (`cellsDisabled` is empty while no button is rendered).
`boardProps` holds the properties of the board array object whose key is not an
array index (a negative number), which is where `board[idx] = v` stores for a
negative `idx`. -/
structure State where
  board : Board
  boardProps : List (Int × Cell)
  currentPlayer : Player
  gameActive : Bool
  mode : Option Mode
  winnerLine : List Nat
  status : String
  cellsDisabled : List Bool
  deriving DecidableEq

/-- The state after the script has loaded (lines 12-16 and 189-193). -/
def State.initial : State where
  board := List.replicate 9 Cell.empty
  boardProps := []
  currentPlayer := Player.X
  gameActive := false
  mode := none
  winnerLine := []
  status := "Select a mode to start"
  cellsDisabled := []

/-! ## Win detection -/

/-- The helper `checkWinFor(b, player)`. -/
def checkWinFor (b : Board) (player : Player) : Bool :=
  WIN_COMBOS.any fun combo =>
    match combo with
    | (a, bIdx, c) =>
      getCell b a == player.toCell && getCell b bIdx == player.toCell &&
        getCell b c == player.toCell

/-- The test inside the loop of `checkWinner`. -/
def lineComplete (b : Board) (combo : Nat × Nat × Nat) : Bool :=
  match combo with
  | (a, b1, c) =>
    (getCell b a).truthy && getCell b a == getCell b b1 && getCell b a == getCell b c

/-- The function `checkWinner()`: returns whether a line is complete and sets
`winnerLine`. -/
def checkWinner (s : State) : Bool × State :=
  match WIN_COMBOS.find? (lineComplete s.board) with
  | some (a, b, c) => (true, { s with winnerLine := [a, b, c] })
  | none => (false, { s with winnerLine := [] })

/-- The test `board.every(cell => cell)`; `every` skips holes. -/
def boardFull (b : Board) : Bool :=
  b.all fun cell => cell == Cell.undef || cell.truthy

/-! ## Minimax -/

/-- The objects `minimax` returns: a base case has only a score. -/
structure Move where
  idx : Option Nat
  score : Int
  deriving DecidableEq

/-- The array `availSpots`: the indices of the slots holding a falsy value, in
increasing order (`map` and `filter` skip holes). -/
def availSpots (newBoard : Board) : List Nat :=
  (List.range newBoard.length).filter fun i => getCell newBoard i == Cell.empty

/-- The first `for` loop of `minimax`, over the remaining available spots.
`search` is the recursive call; it returns the result and the array as the call
left it.  `none` means the recursive call produced no result. -/
def movesLoop (search : Board → Player → Option (Move × Board)) (player : Player) :
    List Nat → Board → List Move → Option (List Move × Board)
  | [], newBoard, moves => some (moves, newBoard)
  | idx :: rest, newBoard, moves =>
    let placed := newBoard.set idx player.toCell
    let result :=
      if player = Player.O then search placed Player.X else search placed Player.O
    match result with
    | none => none
    | some (r, after) =>
      movesLoop search player rest (after.set idx Cell.empty)
        (moves ++ [{ idx := some idx, score := r.score }])

/-- The selection loop for `PLAYER_O`; `bestScore = none` is `-Infinity`. -/
def pickMax : List Move → Option Int → Option Move → Option Move
  | [], _, bestMove => bestMove
  | m :: ms, bestScore, bestMove =>
    let better :=
      match bestScore with
      | none => true
      | some s => decide (m.score > s)
    if better then pickMax ms (some m.score) (some m) else pickMax ms bestScore bestMove

/-- The selection loop for `PLAYER_X`; `bestScore = none` is `Infinity`. -/
def pickMin : List Move → Option Int → Option Move → Option Move
  | [], _, bestMove => bestMove
  | m :: ms, bestScore, bestMove =>
    let better :=
      match bestScore with
      | none => true
      | some s => decide (m.score < s)
    if better then pickMin ms (some m.score) (some m) else pickMin ms bestScore bestMove

/-- The function `minimax(newBoard, player)` with a bound on the recursion
depth.  The result is `none` when the bound is reached or when `bestMove` is
still `undefined` at the `return`. -/
def minimaxAux : Nat → Board → Player → Option (Move × Board)
  | 0, _, _ => none
  | fuel + 1, newBoard, player =>
    let avail := availSpots newBoard
    if checkWinFor newBoard Player.X then some ({ idx := none, score := -10 }, newBoard)
    else if checkWinFor newBoard Player.O then some ({ idx := none, score := 10 }, newBoard)
    else if avail.length = 0 then some ({ idx := none, score := 0 }, newBoard)
    else
      match movesLoop (minimaxAux fuel) player avail newBoard [] with
      | none => none
      | some (moves, after) =>
        let bestMove :=
          if player = Player.O then pickMax moves none none else pickMin moves none none
        match bestMove with
        | none => none
        | some m => some (m, after)

/-- The function `minimax(newBoard, player)`: every recursive call fills one
more slot, so a depth of one more than the number of slots is never reached. -/
def minimax (newBoard : Board) (player : Player) : Option (Move × Board) :=
  minimaxAux (newBoard.length + 1) newBoard player

/-! ## Game progression -/

/-- Reading `board[idx]` for an integer `idx`: a negative `idx` is a property
key of the array object, not an array index. -/
def State.boardGet (s : State) (idx : Int) : Cell :=
  if 0 ≤ idx then getCell s.board idx.toNat
  else (s.boardProps.lookup idx).getD Cell.undef

/-- Writing `board[idx] = v` for an integer `idx`. -/
def State.boardPut (s : State) (idx : Int) (v : Cell) : State :=
  if 0 ≤ idx then { s with board := arraySet s.board idx.toNat v }
  else { s with boardProps := (idx, v) :: s.boardProps }

/-- The function `renderBoard()`: rebuilds the nine cell buttons.  Only the
`disabled` flag of each button is kept. -/
def renderBoard (s : State) : State :=
  { s with
    cellsDisabled := (List.range 9).map fun i =>
      !s.gameActive || (getCell s.board i).truthy ||
        (s.mode == some Mode.ai && s.currentPlayer == Player.O && s.gameActive) }

/-- The function `updateStatus(msg)`. -/
def updateStatus (s : State) (msg : String) : State :=
  { s with status := msg }

/-- The function `highlightWinner()`. -/
def highlightWinner (s : State) : State :=
  renderBoard s

/-- The function `initGame(selectedMode)`. -/
def initGame (s : State) (selectedMode : Mode) : State :=
  let s1 : State :=
    { s with
      board := List.replicate 9 Cell.empty
      boardProps := []
      currentPlayer := Player.X
      gameActive := true
      mode := some selectedMode
      winnerLine := [] }
  let s2 := renderBoard s1
  updateStatus s2 ("Current turn: " ++ s2.currentPlayer.toStr)

/-- The function `aiMove()`.  The search runs on a copy of the board
(`board.slice()`), so the array it hands back is dropped.  When `minimax`
returns `undefined`, reading `best.idx` throws before anything is changed. -/
def aiMove (s : State) : State :=
  match minimax s.board Player.O with
  | none => s
  | some (best, _) =>
    let s1 :=
      match best.idx with
      | some i => { s with board := arraySet s.board i Player.O.toCell }
      | none => s
    let s2 := renderBoard s1
    match checkWinner s2 with
    | (true, s3) =>
      let s4 := updateStatus s3 ("Winner: " ++ Player.O.toStr)
      let s5 := highlightWinner s4
      { s5 with gameActive := false }
    | (false, s3) =>
      if boardFull s3.board then
        let s4 := updateStatus s3 "Draw!"
        { s4 with gameActive := false }
      else
        let s4 := { s3 with currentPlayer := Player.X }
        updateStatus s4 ("Current turn: " ++ s4.currentPlayer.toStr)

/-- The handler `onCellClick(e)`, as a function of the number `idx` read from
the clicked button.  The second component tells whether `aiMove` was scheduled
with `setTimeout`. -/
def onCellClick (s : State) (idx : Int) : State × Bool :=
  if !s.gameActive || (s.boardGet idx).truthy then (s, false)
  else
    let s1 := s.boardPut idx s.currentPlayer.toCell
    let s2 := renderBoard s1
    match checkWinner s2 with
    | (true, s3) =>
      let s4 := updateStatus s3 ("Winner: " ++ s3.currentPlayer.toStr)
      let s5 := highlightWinner s4
      ({ s5 with gameActive := false }, false)
    | (false, s3) =>
      if boardFull s3.board then
        let s4 := updateStatus s3 "Draw!"
        ({ s4 with gameActive := false }, false)
      else
        let s4 :=
          { s3 with
            currentPlayer :=
              if s3.currentPlayer = Player.X then Player.O else Player.X }
        let s5 := updateStatus s4 ("Current turn: " ++ s4.currentPlayer.toStr)
        (s5, s5.mode == some Mode.ai && s5.currentPlayer == Player.O && s5.gameActive)

/-! ## The reference game value

`V` follows the wording of the specification; the search `minimax` is compared
with it below. -/

/-- The number of slots holding `''`. -/
def countEmpty (b : Board) : Nat :=
  b.count Cell.empty

/-- The largest element of a list of scores (`0` for the empty list). -/
def listMax : List Int → Int
  | [] => 0
  | x :: xs => xs.foldl max x

/-- The smallest element of a list of scores (`0` for the empty list). -/
def listMin : List Int → Int
  | [] => 0
  | x :: xs => xs.foldl min x

/-- The other player. -/
def Player.other : Player → Player
  | Player.X => Player.O
  | Player.O => Player.X

/-- The reference game value `V(b, p)`: `-10` if X has a winning line, otherwise
`+10` if O has one, otherwise `0` if no cell is empty, otherwise the maximum
(`p = O`) or minimum (`p = X`) over the empty cells `i` of the value of `b` with
cell `i` set to `p` and the opponent to move.  The recursion ends because every
child has one empty cell fewer. -/
def V (b : Board) (p : Player) : Int :=
  if checkWinFor b Player.X then -10
  else if checkWinFor b Player.O then 10
  else if availSpots b = [] then 0
  else
    match p with
    | Player.O =>
      listMax ((availSpots b).attach.map fun i => V (b.set i.1 Player.O.toCell) Player.X)
    | Player.X =>
      listMin ((availSpots b).attach.map fun i => V (b.set i.1 Player.X.toCell) Player.O)
termination_by countEmpty b
decreasing_by
  all_goals
    have hmem := List.mem_filter.mp i.2
    have hlt : i.1 < b.length := List.mem_range.mp hmem.1
    have hcell : b[i.1] = Cell.empty := by
      have hc := hmem.2
      simpa [getCell, List.getD_eq_getElem?_getD, hlt] using hc
    have hpos : 0 < b.count Cell.empty :=
      List.count_pos_iff.mpr (hcell ▸ List.getElem_mem hlt)
    have hself : (Cell.empty == Cell.empty) = true := rfl
    have hX : (Cell.X == Cell.empty) = false := rfl
    have hO : (Cell.O == Cell.empty) = false := rfl
    simp only [countEmpty, Player.toCell, List.count_set _ _ _ _ hlt, hcell, hself, hX, hO,
      if_true, if_false, Bool.false_eq_true]
    omega

/-- The value of the position reached from `b` when `p` marks cell `i`. -/
def childValue (b : Board) (p : Player) (i : Nat) : Int :=
  V (b.set i p.toCell) p.other

/-! ## Boards and positions used in the statements -/

/-- A 9-cell board whose cells are `''`, `'X'` or `'O'`. -/
def IsBoard (b : Board) : Prop :=
  b.length = 9 ∧ ∀ c ∈ b, c ≠ Cell.undef

instance (b : Board) : Decidable (IsBoard b) := by
  unfold IsBoard
  exact inferInstance

/-- The position of the blocking scenario: X on 0 and 1, O on 3 and 4. -/
def blockBoard : Board :=
  [Cell.X, Cell.X, Cell.empty, Cell.O, Cell.O, Cell.empty, Cell.empty, Cell.empty, Cell.empty]

/-- The state after choosing player-versus-player mode and marking the centre. -/
def centreTaken : State :=
  (onCellClick (initGame State.initial Mode.pvp) 4).1

/-! ## Bounded searches

The searches below certify bounds on `V`.  They work on a record of nine cells,
which evaluates quickly, and are tied to the list-based definitions through
`Grid.toBoard`. -/

/-- Nine cells, one field per board index. -/
structure Grid where
  c0 : Cell
  c1 : Cell
  c2 : Cell
  c3 : Cell
  c4 : Cell
  c5 : Cell
  c6 : Cell
  c7 : Cell
  c8 : Cell
  deriving DecidableEq

/-- The board array a grid stands for. -/
def Grid.toBoard (g : Grid) : Board :=
  [g.c0, g.c1, g.c2, g.c3, g.c4, g.c5, g.c6, g.c7, g.c8]

/-- Reading cell `i` of a grid; past the end reads as `undefined`. -/
def Grid.get (g : Grid) : Nat → Cell
  | 0 => g.c0
  | 1 => g.c1
  | 2 => g.c2
  | 3 => g.c3
  | 4 => g.c4
  | 5 => g.c5
  | 6 => g.c6
  | 7 => g.c7
  | 8 => g.c8
  | _ => Cell.undef

/-- Writing cell `i` of a grid; nothing happens past the end. -/
def Grid.set (g : Grid) (i : Nat) (v : Cell) : Grid :=
  match i with
  | 0 => { g with c0 := v }
  | 1 => { g with c1 := v }
  | 2 => { g with c2 := v }
  | 3 => { g with c3 := v }
  | 4 => { g with c4 := v }
  | 5 => { g with c5 := v }
  | 6 => { g with c6 := v }
  | 7 => { g with c7 := v }
  | 8 => { g with c8 := v }
  | _ => g

/-- Whether a cell holds the mark of `p`. -/
def Cell.isMark (p : Player) : Cell → Bool
  | Cell.X => match p with
    | Player.X => true
    | Player.O => false
  | Cell.O => match p with
    | Player.X => false
    | Player.O => true
  | _ => false

/-- Whether a cell holds `''`. -/
def Cell.isEmpty : Cell → Bool
  | Cell.empty => true
  | _ => false

/-- Whether three cells all hold the mark of `p`. -/
def lineOf (p : Player) (a b c : Cell) : Bool :=
  a.isMark p && b.isMark p && c.isMark p

/-- The eight lines of `WIN_COMBOS` read off a grid. -/
def Grid.wins (g : Grid) (p : Player) : Bool :=
  lineOf p g.c0 g.c1 g.c2 || lineOf p g.c3 g.c4 g.c5 || lineOf p g.c6 g.c7 g.c8 ||
  lineOf p g.c0 g.c3 g.c6 || lineOf p g.c1 g.c4 g.c7 || lineOf p g.c2 g.c5 g.c8 ||
  lineOf p g.c0 g.c4 g.c8 || lineOf p g.c2 g.c4 g.c6

/-- The order in which the bounded searches try the cells: centre, corners,
edges.  Any order of the nine indices would do. -/
def searchOrder : List Nat :=
  [4, 0, 2, 6, 8, 1, 3, 5, 7]

/-- The grids reached by marking one empty cell with `v`. -/
def Grid.children (g : Grid) (v : Cell) : List Grid :=
  searchOrder.filterMap fun i => if (g.get i).isEmpty then some (g.set i v) else none

/-- Evaluates a cell before passing it on. -/
def Cell.seq {α : Type} (c : Cell) (k : Cell → α) : α :=
  match c with
  | Cell.undef => k Cell.undef
  | Cell.empty => k Cell.empty
  | Cell.X => k Cell.X
  | Cell.O => k Cell.O

/-- Evaluates the nine cells of a grid before passing it on. -/
def Grid.seq {α : Type} (g : Grid) (k : Grid → α) : α :=
  g.c0.seq fun a0 => g.c1.seq fun a1 => g.c2.seq fun a2 => g.c3.seq fun a3 =>
  g.c4.seq fun a4 => g.c5.seq fun a5 => g.c6.seq fun a6 => g.c7.seq fun a7 =>
  g.c8.seq fun a8 => k ⟨a0, a1, a2, a3, a4, a5, a6, a7, a8⟩

/-- A bounded search that, when it answers `true`, certifies `t ≤ V g.toBoard p`:
it needs one child reaching `t` when O moves and all children when X moves. -/
def valueAtLeast : Nat → Grid → Player → Int → Bool
  | 0, _, _, _ => false
  | n + 1, g0, p, t =>
    g0.seq fun g =>
    if g.wins Player.X then decide (t ≤ -10)
    else if g.wins Player.O then decide (t ≤ 10)
    else
      match p with
      | Player.O =>
        match g.children Cell.O with
        | [] => decide (t ≤ 0)
        | k :: ks => (k :: ks).any fun c => valueAtLeast n c Player.X t
      | Player.X =>
        match g.children Cell.X with
        | [] => decide (t ≤ 0)
        | k :: ks => (k :: ks).all fun c => valueAtLeast n c Player.O t

/-- A bounded search that, when it answers `true`, certifies `V g.toBoard p ≤ t`. -/
def valueAtMost : Nat → Grid → Player → Int → Bool
  | 0, _, _, _ => false
  | n + 1, g0, p, t =>
    g0.seq fun g =>
    if g.wins Player.X then decide (-10 ≤ t)
    else if g.wins Player.O then decide (10 ≤ t)
    else
      match p with
      | Player.O =>
        match g.children Cell.O with
        | [] => decide (0 ≤ t)
        | k :: ks => (k :: ks).all fun c => valueAtMost n c Player.X t
      | Player.X =>
        match g.children Cell.X with
        | [] => decide (0 ≤ t)
        | k :: ks => (k :: ks).any fun c => valueAtMost n c Player.O t

/-- The empty grid. -/
def emptyGrid : Grid :=
  ⟨Cell.empty, Cell.empty, Cell.empty, Cell.empty, Cell.empty, Cell.empty, Cell.empty,
    Cell.empty, Cell.empty⟩

/-- A bounded search that, when it answers `true`, certifies that `minimax`
picks cell `i` for `p` on `g`: neither player has a line, cell `i` is empty and
its child reaches the threshold `t`, the children of earlier empty cells stay
strictly on the wrong side of `t`, and those of later empty cells do not pass
it. -/
def bestCert (n : Nat) (g : Grid) (p : Player) (i : Nat) (t : Int) : Bool :=
  (g.get i).isEmpty && !g.wins Player.X && !g.wins Player.O &&
    match p with
    | Player.O =>
      valueAtLeast n (g.set i Cell.O) Player.X t &&
        searchOrder.all fun j =>
          j == i || !(g.get j).isEmpty ||
            valueAtMost n (g.set j Cell.O) Player.X (if j < i then t - 1 else t)
    | Player.X =>
      valueAtMost n (g.set i Cell.X) Player.O t &&
        searchOrder.all fun j =>
          j == i || !(g.get j).isEmpty ||
            valueAtLeast n (g.set j Cell.X) Player.O (if j < i then t + 1 else t)

/-! ## Engine self-play and play against the AI -/

/-- Engine self-play, the experiment the specification describes (the script
has no such loop): while no player has a line and the board is not full, the
mover marks the cell `minimax` names and the turn passes.  The result is the
final board; `none` means the bound on the number of moves was reached or
`minimax` named no cell. -/
def selfPlay : Nat → Board → Player → Option Board
  | 0, _, _ => none
  | n + 1, board, mover =>
    if checkWinFor board Player.X || checkWinFor board Player.O || boardFull board then
      some board
    else
      match minimax board mover with
      | some (best, _) =>
        match best.idx with
        | some idx => selfPlay n (arraySet board idx mover.toCell) mover.other
        | none => none
      | none => none

/-- One human click under strict alternation: `onCellClick` handles the click,
and when it scheduled the AI reply with `setTimeout`, `aiMove` runs before
anything else happens. -/
def humanRound (s : State) (idx : Nat) : State :=
  match onCellClick s (idx : Int) with
  | (s1, true) => aiMove s1
  | (s1, false) => s1

/-- The state after a sequence of human clicks, each followed by the AI reply
it scheduled. -/
def play (s : State) (clicks : List Nat) : State :=
  clicks.foldl humanRound s

/-- A sequence of legal X moves from `s`: each click comes while the game is
active, on X's turn, on a cell that is empty. -/
def legalClicks : State → List Nat → Bool
  | _, [] => true
  | s, idx :: rest =>
    s.gameActive && s.currentPlayer == Player.X && getCell s.board idx == Cell.empty &&
      legalClicks (humanRound s idx) rest

/-- What holds after every round of play against the AI: X has no line; while
the game is active it is X's turn, O has no line either, a cell is empty and O
can still avoid defeat; once it is over, O has a line or the board is full. -/
def AiInv (s : State) : Prop :=
  s.mode = some Mode.ai ∧ checkWinFor s.board Player.X = false ∧
    (s.gameActive = true →
      s.currentPlayer = Player.X ∧ checkWinFor s.board Player.O = false ∧
        Cell.empty ∈ s.board ∧ 0 ≤ V s.board Player.X) ∧
    (s.gameActive = false → checkWinFor s.board Player.O = true ∨ boardFull s.board = true)

/-! ## Scenarios, reachability and the page

The definitions below serve the statements about concrete scenarios, about the
states reachable by handler calls, and about the page with its pending timers. -/

/-- The board of the one-empty-cell scenario of the specification:
`[X,O,X,O,X,O,X,_,_]`. -/
def scenarioBoard : Board :=
  [Cell.X, Cell.O, Cell.X, Cell.O, Cell.X, Cell.O, Cell.X, Cell.empty, Cell.empty]

/-- A state in the middle of an AI-mode game whose board is the blocking
scenario, with O to move. -/
def blockState : State :=
  { State.initial with
    board := blockBoard, currentPlayer := Player.O, gameActive := true, mode := some Mode.ai }

/-- A step of the game: a mode button or the restart button runs `initGame`, a
cell button runs `onCellClick`, a timer runs `aiMove`. -/
inductive GameStep where
  | init (m : Mode)
  | click (idx : Int)
  | ai

/-- The state after one step. -/
def applyStep (s : State) : GameStep → State
  | GameStep.init m => initGame s m
  | GameStep.click idx => (onCellClick s idx).1
  | GameStep.ai => aiMove s

/-- The state after a sequence of steps. -/
def runSteps (s : State) (steps : List GameStep) : State :=
  steps.foldl applyStep s

/-- The invariant of every handler call: an active game has no complete line,
and never do both players have one. -/
def LinesInv (s : State) : Prop :=
  (s.gameActive = true →
    checkWinFor s.board Player.X = false ∧ checkWinFor s.board Player.O = false) ∧
  ¬ (checkWinFor s.board Player.X = true ∧ checkWinFor s.board Player.O = true)

/-- The page between two events: the game state and the number of `aiMove`
calls that `setTimeout` has scheduled and that have not fired yet. -/
structure Page where
  state : State
  timers : Nat
  deriving DecidableEq

/-- What can happen to the page: a mode button is clicked, the restart button is
clicked, cell button `i` is clicked, or a scheduled `aiMove` fires. -/
inductive PageEvent where
  | chooseMode (m : Mode)
  | restart
  | click (i : Nat)
  | timerFires

/-- The page once the script has loaded. -/
def Page.loaded : Page :=
  { state := State.initial, timers := 0 }

/-- One event.  A cell click reaches `onCellClick` only when button `i` exists
and was not disabled at the last `renderBoard`; the restart handler runs
`initGame` only when a mode is set; `initGame` does not cancel a scheduled
`aiMove`. -/
def Page.handle (p : Page) : PageEvent → Page
  | PageEvent.chooseMode m => { p with state := initGame p.state m }
  | PageEvent.restart =>
    match p.state.mode with
    | some m => { p with state := initGame p.state m }
    | none => p
  | PageEvent.click i =>
    if p.state.cellsDisabled.getD i true then p
    else
      match onCellClick p.state (i : Int) with
      | (s, true) => { state := s, timers := p.timers + 1 }
      | (s, false) => { state := s, timers := p.timers }
  | PageEvent.timerFires =>
    match p.timers with
    | 0 => p
    | n + 1 => { state := aiMove p.state, timers := n }

/-- The page after a sequence of events. -/
def Page.run (p : Page) (events : List PageEvent) : Page :=
  events.foldl Page.handle p

/-- The number of cells holding the mark of `p`. -/
def countMarks (b : Board) (p : Player) : Nat :=
  b.count p.toCell

/-! ## The search with counters -/

/-- The first loop of `minimax` with two counters threaded through: the number
of base-case evaluations made so far and the deepest nesting of recursive calls
seen so far.  `search` is the instrumented recursive call. -/
def movesLoopCounted (search : Board → Player → Option (Move × Board × Nat × Nat))
    (player : Player) :
    List Nat → Board → List Move → Nat → Nat → Option (List Move × Board × Nat × Nat)
  | [], newBoard, moves, leaves, depth => some (moves, newBoard, leaves, depth)
  | idx :: rest, newBoard, moves, leaves, depth =>
    let placed := newBoard.set idx player.toCell
    let result :=
      if player = Player.O then search placed Player.X else search placed Player.O
    match result with
    | none => none
    | some (r, after, l, d) =>
      movesLoopCounted search player rest (after.set idx Cell.empty)
        (moves ++ [{ idx := some idx, score := r.score }]) (leaves + l) (max depth (d + 1))

/-- The function `minimaxAux` instrumented: next to the result and the array it
returns the number of base-case evaluations performed and the depth of the
recursion below this call. -/
def minimaxCounted : Nat → Board → Player → Option (Move × Board × Nat × Nat)
  | 0, _, _ => none
  | fuel + 1, newBoard, player =>
    let avail := availSpots newBoard
    if checkWinFor newBoard Player.X then some ({ idx := none, score := -10 }, newBoard, 1, 0)
    else if checkWinFor newBoard Player.O then
      some ({ idx := none, score := 10 }, newBoard, 1, 0)
    else if avail.length = 0 then some ({ idx := none, score := 0 }, newBoard, 1, 0)
    else
      match movesLoopCounted (minimaxCounted fuel) player avail newBoard [] 0 0 with
      | none => none
      | some (moves, after, leaves, depth) =>
        let bestMove :=
          if player = Player.O then pickMax moves none none else pickMin moves none none
        match bestMove with
        | none => none
        | some m => some (m, after, leaves, depth)

/-- Dropping the counters. -/
def dropCounts {α : Type} (r : Option (α × Board × Nat × Nat)) : Option (α × Board) :=
  r.map fun x => (x.1, x.2.1)

/-! ## Basic facts about boards -/

theorem getCell_set_self (b : Board) (i : Nat) (v : Cell) (h : i < b.length) :
    getCell (b.set i v) i = v := by
  simp [getCell, List.getD_eq_getElem?_getD, h]

theorem getCell_set_other (b : Board) (i j : Nat) (v : Cell) (h : i ≠ j) :
    getCell (b.set i v) j = getCell b j := by
  simp [getCell, List.getD_eq_getElem?_getD, List.getElem?_set_ne h]

theorem lt_length_of_getCell {b : Board} {i : Nat} {c : Cell} (h : getCell b i = c)
    (hc : c ≠ Cell.undef) : i < b.length := by
  by_contra hlt
  have : getCell b i = Cell.undef := by
    simp [getCell, List.getD_eq_getElem?_getD, List.getElem?_eq_none (Nat.le_of_not_lt hlt)]
  exact hc (h ▸ this)

theorem mem_availSpots {b : Board} {i : Nat} :
    i ∈ availSpots b ↔ getCell b i = Cell.empty := by
  unfold availSpots
  rw [List.mem_filter, List.mem_range]
  constructor
  · intro h
    simpa using h.2
  · intro h
    exact ⟨lt_length_of_getCell h (by decide), by simpa using h⟩

theorem count_set_of_empty (b : Board) (i : Nat) (v : Cell)
    (h : getCell b i = Cell.empty) (hv : v ≠ Cell.empty) :
    countEmpty (b.set i v) + 1 = countEmpty b := by
  induction b generalizing i with
  | nil => simp [getCell] at h
  | cons c cs ih =>
    cases i with
    | zero =>
      have hc : c = Cell.empty := by simpa [getCell] using h
      subst hc
      simp [countEmpty, List.count_cons, hv]
    | succ k =>
      have hk : getCell cs k = Cell.empty := by simpa [getCell] using h
      have := ih k hk
      simp only [countEmpty, List.set_cons_succ, List.count_cons] at this ⊢
      omega

theorem set_restore (b : Board) (i : Nat) (v : Cell) (h : getCell b i = Cell.empty) :
    (b.set i v).set i Cell.empty = b := by
  induction b generalizing i with
  | nil => simp
  | cons c cs ih =>
    cases i with
    | zero =>
      have hc : c = Cell.empty := by simpa [getCell] using h
      simp [hc]
    | succ k =>
      have hk : getCell cs k = Cell.empty := by simpa [getCell] using h
      simp [ih k hk]

theorem Player.toCell_ne_empty (p : Player) : p.toCell ≠ Cell.empty := by
  cases p <;> decide

/-! ## The reference value and the selection loops -/

theorem V_eq (b : Board) (p : Player) :
    V b p =
      if checkWinFor b Player.X then -10
      else if checkWinFor b Player.O then 10
      else if availSpots b = [] then 0
      else
        match p with
        | Player.O => listMax ((availSpots b).map fun i => V (b.set i Player.O.toCell) Player.X)
        | Player.X => listMin ((availSpots b).map fun i => V (b.set i Player.X.toCell) Player.O) := by
  rw [V.eq_def]
  have hO : (availSpots b).attach.map (fun i => V (b.set i.1 Player.O.toCell) Player.X) =
      (availSpots b).map fun i => V (b.set i Player.O.toCell) Player.X :=
    List.attach_map_coe (availSpots b) fun i => V (b.set i Player.O.toCell) Player.X
  have hX : (availSpots b).attach.map (fun i => V (b.set i.1 Player.X.toCell) Player.O) =
      (availSpots b).map fun i => V (b.set i Player.X.toCell) Player.O :=
    List.attach_map_coe (availSpots b) fun i => V (b.set i Player.X.toCell) Player.O
  rw [hO, hX]

theorem foldl_max_ge (l : List Int) (a : Int) :
    a ≤ l.foldl max a ∧ ∀ x ∈ l, x ≤ l.foldl max a := by
  induction l generalizing a with
  | nil => simp
  | cons y ys ih =>
    obtain ⟨h1, h2⟩ := ih (max a y)
    refine ⟨le_trans (le_max_left a y) h1, ?_⟩
    intro x hx
    rcases List.mem_cons.mp hx with rfl | hx
    · exact le_trans (le_max_right a x) h1
    · exact h2 x hx

theorem foldl_max_mem (l : List Int) (a : Int) :
    l.foldl max a = a ∨ l.foldl max a ∈ l := by
  induction l generalizing a with
  | nil => simp
  | cons y ys ih =>
    rcases ih (max a y) with h | h
    · rcases max_choice a y with h' | h'
      · left; rw [List.foldl_cons, h, h']
      · right; rw [List.foldl_cons, h, h']; exact List.mem_cons_self _ _
    · right; exact List.mem_cons_of_mem _ h

theorem foldl_min_le (l : List Int) (a : Int) :
    l.foldl min a ≤ a ∧ ∀ x ∈ l, l.foldl min a ≤ x := by
  induction l generalizing a with
  | nil => simp
  | cons y ys ih =>
    obtain ⟨h1, h2⟩ := ih (min a y)
    refine ⟨le_trans h1 (min_le_left a y), ?_⟩
    intro x hx
    rcases List.mem_cons.mp hx with rfl | hx
    · exact le_trans h1 (min_le_right a x)
    · exact h2 x hx

theorem foldl_min_mem (l : List Int) (a : Int) :
    l.foldl min a = a ∨ l.foldl min a ∈ l := by
  induction l generalizing a with
  | nil => simp
  | cons y ys ih =>
    rcases ih (min a y) with h | h
    · rcases min_choice a y with h' | h'
      · left; rw [List.foldl_cons, h, h']
      · right; rw [List.foldl_cons, h, h']; exact List.mem_cons_self _ _
    · right; exact List.mem_cons_of_mem _ h

/-- On a non-empty list `listMax` is a member and an upper bound. -/
theorem listMax_spec (l : List Int) (h : l ≠ []) :
    listMax l ∈ l ∧ ∀ x ∈ l, x ≤ listMax l := by
  cases l with
  | nil => exact absurd rfl h
  | cons y ys =>
    obtain ⟨h1, h2⟩ := foldl_max_ge ys y
    refine ⟨?_, ?_⟩
    · rcases foldl_max_mem ys y with hm | hm
      · simp [listMax, hm]
      · exact List.mem_cons_of_mem _ hm
    · intro x hx
      rcases List.mem_cons.mp hx with rfl | hx
      · exact h1
      · exact h2 x hx

/-- On a non-empty list `listMin` is a member and a lower bound. -/
theorem listMin_spec (l : List Int) (h : l ≠ []) :
    listMin l ∈ l ∧ ∀ x ∈ l, listMin l ≤ x := by
  cases l with
  | nil => exact absurd rfl h
  | cons y ys =>
    obtain ⟨h1, h2⟩ := foldl_min_le ys y
    refine ⟨?_, ?_⟩
    · rcases foldl_min_mem ys y with hm | hm
      · simp [listMin, hm]
      · exact List.mem_cons_of_mem _ hm
    · intro x hx
      rcases List.mem_cons.mp hx with rfl | hx
      · exact h1
      · exact h2 x hx

/-- What the selection loop for O returns when it starts from a current best:
either the current best survives, or the first strictly better move that no
later move beats. -/
theorem pickMax_some (ms : List Move) (s : Int) (m0 : Move) :
    ∃ r, pickMax ms (some s) (some m0) = some r ∧
      ((r = m0 ∧ ∀ m ∈ ms, m.score ≤ s) ∨
        (∃ pre post, ms = pre ++ r :: post ∧ s < r.score ∧
          (∀ m ∈ pre, m.score < r.score) ∧ ∀ m ∈ post, m.score ≤ r.score)) := by
  induction ms generalizing s m0 with
  | nil => exact ⟨m0, rfl, Or.inl ⟨rfl, by simp⟩⟩
  | cons m ms ih =>
    by_cases hgt : m.score > s
    · obtain ⟨r, hr, hcase⟩ := ih m.score m
      refine ⟨r, by simp [pickMax, hgt, hr], Or.inr ?_⟩
      rcases hcase with ⟨rfl, hall⟩ | ⟨pre, post, rfl, hlt, hpre, hpost⟩
      · exact ⟨[], ms, rfl, hgt, by simp, hall⟩
      · refine ⟨m :: pre, post, rfl, lt_trans hgt hlt, ?_, hpost⟩
        intro x hx
        rcases List.mem_cons.mp hx with rfl | hx
        · exact hlt
        · exact hpre x hx
    · obtain ⟨r, hr, hcase⟩ := ih s m0
      refine ⟨r, by simp [pickMax, hgt, hr], ?_⟩
      rcases hcase with ⟨rfl, hall⟩ | ⟨pre, post, rfl, hlt, hpre, hpost⟩
      · left
        refine ⟨rfl, ?_⟩
        intro x hx
        rcases List.mem_cons.mp hx with rfl | hx
        · exact not_lt.mp hgt
        · exact hall x hx
      · right
        refine ⟨m :: pre, post, rfl, hlt, ?_, hpost⟩
        intro x hx
        rcases List.mem_cons.mp hx with rfl | hx
        · exact lt_of_le_of_lt (not_lt.mp hgt) hlt
        · exact hpre x hx

/-- The selection loop for O on a non-empty list returns the first move of
largest score. -/
theorem pickMax_first (ms : List Move) (h : ms ≠ []) :
    ∃ r pre post, pickMax ms none none = some r ∧ ms = pre ++ r :: post ∧
      (∀ m ∈ pre, m.score < r.score) ∧ ∀ m ∈ post, m.score ≤ r.score := by
  cases ms with
  | nil => exact absurd rfl h
  | cons m ms =>
    obtain ⟨r, hr, hcase⟩ := pickMax_some ms m.score m
    have hstart : pickMax (m :: ms) none none = some r := by simp [pickMax, hr]
    rcases hcase with ⟨rfl, hall⟩ | ⟨pre, post, rfl, hlt, hpre, hpost⟩
    · exact ⟨r, [], ms, hstart, rfl, by simp, hall⟩
    · refine ⟨r, m :: pre, post, hstart, rfl, ?_, hpost⟩
      intro x hx
      rcases List.mem_cons.mp hx with rfl | hx
      · exact hlt
      · exact hpre x hx

/-- The mirror image of `pickMax_some` for the selection loop for X. -/
theorem pickMin_some (ms : List Move) (s : Int) (m0 : Move) :
    ∃ r, pickMin ms (some s) (some m0) = some r ∧
      ((r = m0 ∧ ∀ m ∈ ms, s ≤ m.score) ∨
        (∃ pre post, ms = pre ++ r :: post ∧ r.score < s ∧
          (∀ m ∈ pre, r.score < m.score) ∧ ∀ m ∈ post, r.score ≤ m.score)) := by
  induction ms generalizing s m0 with
  | nil => exact ⟨m0, rfl, Or.inl ⟨rfl, by simp⟩⟩
  | cons m ms ih =>
    by_cases hgt : m.score < s
    · obtain ⟨r, hr, hcase⟩ := ih m.score m
      refine ⟨r, by simp [pickMin, hgt, hr], Or.inr ?_⟩
      rcases hcase with ⟨rfl, hall⟩ | ⟨pre, post, rfl, hlt, hpre, hpost⟩
      · exact ⟨[], ms, rfl, hgt, by simp, hall⟩
      · refine ⟨m :: pre, post, rfl, lt_trans hlt hgt, ?_, hpost⟩
        intro x hx
        rcases List.mem_cons.mp hx with rfl | hx
        · exact hlt
        · exact hpre x hx
    · obtain ⟨r, hr, hcase⟩ := ih s m0
      refine ⟨r, by simp [pickMin, hgt, hr], ?_⟩
      rcases hcase with ⟨rfl, hall⟩ | ⟨pre, post, rfl, hlt, hpre, hpost⟩
      · left
        refine ⟨rfl, ?_⟩
        intro x hx
        rcases List.mem_cons.mp hx with rfl | hx
        · exact not_lt.mp hgt
        · exact hall x hx
      · right
        refine ⟨m :: pre, post, rfl, hlt, ?_, hpost⟩
        intro x hx
        rcases List.mem_cons.mp hx with rfl | hx
        · exact lt_of_lt_of_le hlt (not_lt.mp hgt)
        · exact hpre x hx

/-- The selection loop for X on a non-empty list returns the first move of
smallest score. -/
theorem pickMin_first (ms : List Move) (h : ms ≠ []) :
    ∃ r pre post, pickMin ms none none = some r ∧ ms = pre ++ r :: post ∧
      (∀ m ∈ pre, r.score < m.score) ∧ ∀ m ∈ post, r.score ≤ m.score := by
  cases ms with
  | nil => exact absurd rfl h
  | cons m ms =>
    obtain ⟨r, hr, hcase⟩ := pickMin_some ms m.score m
    have hstart : pickMin (m :: ms) none none = some r := by simp [pickMin, hr]
    rcases hcase with ⟨rfl, hall⟩ | ⟨pre, post, rfl, hlt, hpre, hpost⟩
    · exact ⟨r, [], ms, hstart, rfl, by simp, hall⟩
    · refine ⟨r, m :: pre, post, hstart, rfl, ?_, hpost⟩
      intro x hx
      rcases List.mem_cons.mp hx with rfl | hx
      · exact hlt
      · exact hpre x hx

/-! ## Correctness of `minimax` -/

/-- The first loop of `minimax` leaves the array as it found it and collects one
move per available spot, provided each recursive call returns its argument
unchanged. -/
theorem movesLoop_eq (search : Board → Player → Option (Move × Board)) (p : Player)
    (b : Board) (f : Nat → Int) (rest : List Nat) (acc : List Move)
    (hrest : ∀ i ∈ rest, getCell b i = Cell.empty)
    (hs : ∀ i ∈ rest, ∃ m, search (b.set i p.toCell) p.other = some (m, b.set i p.toCell) ∧
      m.score = f i) :
    movesLoop search p rest b acc =
      some (acc ++ rest.map (fun i => ({ idx := some i, score := f i } : Move)), b) := by
  induction rest generalizing acc with
  | nil => simp [movesLoop]
  | cons i rest ih =>
    obtain ⟨m, hm, hscore⟩ := hs i (List.mem_cons_self _ _)
    have hcall : (if p = Player.O then search (b.set i p.toCell) Player.X
        else search (b.set i p.toCell) Player.O) = some (m, b.set i p.toCell) := by
      cases p
      · simpa [Player.other] using hm
      · simpa [Player.other] using hm
    have hback : (b.set i p.toCell).set i Cell.empty = b :=
      set_restore b i p.toCell (hrest i (List.mem_cons_self _ _))
    have htail := ih (acc ++ [{ idx := some i, score := m.score }])
      (fun j hj => hrest j (List.mem_cons_of_mem _ hj))
      (fun j hj => hs j (List.mem_cons_of_mem _ hj))
    simp only [movesLoop, hcall, hback]
    rw [htail, hscore]
    simp

/-- What `minimax` computes, for any bound above the number of empty cells: it
returns, leaves the array unchanged, scores the position with the reference
value, and on a position that is not terminal picks the first available spot
whose child has that value. -/
theorem minimaxAux_spec (fuel : Nat) (b : Board) (p : Player) (h : countEmpty b < fuel) :
    ∃ m, minimaxAux fuel b p = some (m, b) ∧ m.score = V b p ∧
      ((checkWinFor b Player.X = true ∨ checkWinFor b Player.O = true ∨ availSpots b = []) →
        m.idx = none) ∧
      (checkWinFor b Player.X = false → checkWinFor b Player.O = false → availSpots b ≠ [] →
        ∃ pre i post, availSpots b = pre ++ i :: post ∧ m.idx = some i ∧
          childValue b p i = V b p ∧ ∀ j ∈ pre, childValue b p j ≠ V b p) := by
  induction fuel generalizing b p with
  | zero => omega
  | succ n ih =>
    rw [minimaxAux, V_eq]
    by_cases hX : checkWinFor b Player.X = true
    · exact ⟨⟨none, -10⟩, by simp [hX], by simp [hX], fun _ => rfl, fun h1 => by simp [hX] at h1⟩
    by_cases hO : checkWinFor b Player.O = true
    · exact ⟨⟨none, 10⟩, by simp [hX, hO], by simp [hX, hO], fun _ => rfl,
        fun _ h2 => by simp [hO] at h2⟩
    by_cases hA : availSpots b = []
    · exact ⟨⟨none, 0⟩, by simp [hX, hO, hA], by simp [hX, hO, hA], fun _ => rfl,
        fun _ _ h3 => absurd hA h3⟩
    have hloop : movesLoop (minimaxAux n) p (availSpots b) b [] =
        some ((availSpots b).map
          (fun i => ({ idx := some i, score := childValue b p i } : Move)), b) := by
      have := movesLoop_eq (minimaxAux n) p b (childValue b p) (availSpots b) []
        (fun i hi => mem_availSpots.mp hi)
        (fun i hi => by
          have hc := count_set_of_empty b i p.toCell (mem_availSpots.mp hi)
            (Player.toCell_ne_empty p)
          obtain ⟨m, hm, hsc, _⟩ := ih (b.set i p.toCell) p.other (by omega)
          exact ⟨m, hm, hsc⟩)
      simpa using this
    have hne : (availSpots b).map
        (fun i => ({ idx := some i, score := childValue b p i } : Move)) ≠ [] := by
      simpa using hA
    have hlen : ¬ (availSpots b).length = 0 := by
      simpa [List.length_eq_zero] using hA
    have hscores : ∀ q : Player, (availSpots b).map (fun i => V (b.set i q.toCell) q.other) =
        ((availSpots b).map
          (fun i => ({ idx := some i, score := childValue b q i } : Move))).map Move.score := by
      intro q
      simp [childValue, List.map_map, Function.comp_def]
    cases p with
    | O =>
      obtain ⟨r, pre, post, hpick, hdec, hpre, hpost⟩ := pickMax_first _ hne
      have hLeq : (availSpots b).map (fun i => V (b.set i Player.O.toCell) Player.X) =
          (pre ++ r :: post).map Move.score := by
        rw [← hdec]
        exact hscores Player.O
      have hval : r.score =
          listMax ((availSpots b).map fun i => V (b.set i Player.O.toCell) Player.X) := by
        rw [hLeq]
        obtain ⟨hmem, hub⟩ := listMax_spec ((pre ++ r :: post).map Move.score) (by simp)
        apply le_antisymm
        · exact hub _ (List.mem_map.mpr ⟨r, by simp, rfl⟩)
        · rcases List.mem_map.mp hmem with ⟨m, hm, hms⟩
          rw [← hms]
          rcases List.mem_append.mp hm with hm | hm
          · exact le_of_lt (hpre m hm)
          · rcases List.mem_cons.mp hm with rfl | hm
            · exact le_refl _
            · exact hpost m hm
      obtain ⟨l1, l2, hsplit, hl1, hl2⟩ := List.map_eq_append_iff.mp hdec
      obtain ⟨i, l3, hl2e, hri, hl3⟩ := List.map_eq_cons_iff.mp hl2
      refine ⟨r, by simp [hX, hO, hlen, hloop, hpick], by simp [hX, hO, hA, hval], ?_, ?_⟩
      · intro hterm
        rcases hterm with h1 | h1 | h1
        · exact absurd h1 hX
        · exact absurd h1 hO
        · exact absurd h1 hA
      · intro _ _ _
        refine ⟨l1, i, l3, by rw [hsplit, hl2e], by rw [← hri], ?_, ?_⟩
        · simp only [hX, hO, hA, if_false, Bool.false_eq_true]
          rw [← hval, ← hri]
        · intro j hj
          simp only [hX, hO, hA, if_false, Bool.false_eq_true]
          rw [← hval]
          have := hpre ⟨some j, childValue b Player.O j⟩
            (by rw [← hl1]; exact List.mem_map.mpr ⟨j, hj, rfl⟩)
          exact ne_of_lt this
    | X =>
      obtain ⟨r, pre, post, hpick, hdec, hpre, hpost⟩ := pickMin_first _ hne
      have hLeq : (availSpots b).map (fun i => V (b.set i Player.X.toCell) Player.O) =
          (pre ++ r :: post).map Move.score := by
        rw [← hdec]
        exact hscores Player.X
      have hval : r.score =
          listMin ((availSpots b).map fun i => V (b.set i Player.X.toCell) Player.O) := by
        rw [hLeq]
        obtain ⟨hmem, hlb⟩ := listMin_spec ((pre ++ r :: post).map Move.score) (by simp)
        apply le_antisymm
        · rcases List.mem_map.mp hmem with ⟨m, hm, hms⟩
          rw [← hms]
          rcases List.mem_append.mp hm with hm | hm
          · exact le_of_lt (hpre m hm)
          · rcases List.mem_cons.mp hm with rfl | hm
            · exact le_refl _
            · exact hpost m hm
        · exact hlb _ (List.mem_map.mpr ⟨r, by simp, rfl⟩)
      obtain ⟨l1, l2, hsplit, hl1, hl2⟩ := List.map_eq_append_iff.mp hdec
      obtain ⟨i, l3, hl2e, hri, hl3⟩ := List.map_eq_cons_iff.mp hl2
      refine ⟨r, by simp [hX, hO, hlen, hloop, hpick], by simp [hX, hO, hA, hval], ?_, ?_⟩
      · intro hterm
        rcases hterm with h1 | h1 | h1
        · exact absurd h1 hX
        · exact absurd h1 hO
        · exact absurd h1 hA
      · intro _ _ _
        refine ⟨l1, i, l3, by rw [hsplit, hl2e], by rw [← hri], ?_, ?_⟩
        · simp only [hX, hO, hA, if_false, Bool.false_eq_true]
          rw [← hval, ← hri]
        · intro j hj
          simp only [hX, hO, hA, if_false, Bool.false_eq_true]
          rw [← hval]
          have := hpre ⟨some j, childValue b Player.X j⟩
            (by rw [← hl1]; exact List.mem_map.mpr ⟨j, hj, rfl⟩)
          exact ne_of_gt this

theorem countEmpty_le_length (b : Board) : countEmpty b ≤ b.length :=
  List.count_le_length _ _

/-- The specification of `minimaxAux` at the bound `minimax` uses. -/
theorem minimax_spec (b : Board) (p : Player) :
    ∃ m, minimax b p = some (m, b) ∧ m.score = V b p ∧
      ((checkWinFor b Player.X = true ∨ checkWinFor b Player.O = true ∨ availSpots b = []) →
        m.idx = none) ∧
      (checkWinFor b Player.X = false → checkWinFor b Player.O = false → availSpots b ≠ [] →
        ∃ pre i post, availSpots b = pre ++ i :: post ∧ m.idx = some i ∧
          childValue b p i = V b p ∧ ∀ j ∈ pre, childValue b p j ≠ V b p) :=
  minimaxAux_spec (b.length + 1) b p (Nat.lt_succ_of_le (countEmpty_le_length b))

theorem availSpots_sorted (b : Board) : (availSpots b).Pairwise (· < ·) :=
  (List.pairwise_lt_range b.length).filter _

theorem mem_iff_getCell {b : Board} {c : Cell} (hc : c ≠ Cell.undef) :
    c ∈ b ↔ ∃ i, getCell b i = c := by
  constructor
  · intro h
    obtain ⟨i, hi, rfl⟩ := List.getElem_of_mem h
    exact ⟨i, by simp [getCell, List.getD_eq_getElem?_getD, hi]⟩
  · rintro ⟨i, hi⟩
    have hlt := lt_length_of_getCell hi hc
    have : b[i] = c := by
      simpa [getCell, List.getD_eq_getElem?_getD, hlt] using hi
    exact this ▸ List.getElem_mem _

theorem availSpots_ne_nil_iff {b : Board} : availSpots b ≠ [] ↔ Cell.empty ∈ b := by
  rw [mem_iff_getCell (by decide)]
  constructor
  · intro h
    obtain ⟨i, hi⟩ := List.exists_mem_of_ne_nil _ h
    exact ⟨i, mem_availSpots.mp hi⟩
  · rintro ⟨i, hi⟩ h
    have := mem_availSpots.mpr hi
    simp [h] at this

/-- On a position that is not terminal the value bounds every child from the
mover's side. -/
theorem V_bounds_children (b : Board) (p : Player) (hX : checkWinFor b Player.X = false)
    (hO : checkWinFor b Player.O = false) (j : Nat) (hj : getCell b j = Cell.empty) :
    (p = Player.O → childValue b p j ≤ V b p) ∧ (p = Player.X → V b p ≤ childValue b p j) := by
  have hmem := mem_availSpots.mpr hj
  have hA : availSpots b ≠ [] := List.ne_nil_of_mem hmem
  rw [V_eq]
  simp only [hX, hO, hA, if_false, Bool.false_eq_true]
  cases p with
  | O =>
    refine ⟨fun _ => ?_, fun h => absurd h (by decide)⟩
    exact (listMax_spec _ (by simpa using hA)).2 _ (List.mem_map.mpr ⟨j, hmem, rfl⟩)
  | X =>
    refine ⟨fun h => absurd h (by decide), fun _ => ?_⟩
    exact (listMin_spec _ (by simpa using hA)).2 _ (List.mem_map.mpr ⟨j, hmem, rfl⟩)

/-! ## Win detection and the search result -/

/-- C1: `checkWinFor(b, p)` is true exactly when one of the eight lines (rows
`[0,1,2]`, `[3,4,5]`, `[6,7,8]`, columns `[0,3,6]`, `[1,4,7]`, `[2,5,8]`,
diagonals `[0,4,8]`, `[2,4,6]`) has all three of its cells equal to `p`. -/
theorem checkWinFor_iff_line (b : Board) (p : Player) :
    checkWinFor b p = true ↔
      ∃ t ∈ [(0, 1, 2), (3, 4, 5), (6, 7, 8), (0, 3, 6), (1, 4, 7), (2, 5, 8),
          (0, 4, 8), (2, 4, 6)],
        getCell b t.1 = p.toCell ∧ getCell b t.2.1 = p.toCell ∧ getCell b t.2.2 = p.toCell := by
  simp [checkWinFor, WIN_COMBOS, and_assoc]

/-- C2: on a 9-cell board without a winning line and with an empty cell,
`minimax` returns a move whose `idx` is a number in `0..8` naming an empty
cell. -/
theorem minimax_idx_empty (b : Board) (p : Player) (hb : IsBoard b)
    (hX : checkWinFor b Player.X = false) (hO : checkWinFor b Player.O = false)
    (he : Cell.empty ∈ b) :
    ∃ m after i, minimax b p = some (m, after) ∧ m.idx = some i ∧ i < 9 ∧
      getCell b i = Cell.empty := by
  obtain ⟨m, hm, _, _, hnt⟩ := minimax_spec b p
  obtain ⟨pre, i, post, hsplit, hidx, _, _⟩ := hnt hX hO (availSpots_ne_nil_iff.mpr he)
  have hi : getCell b i = Cell.empty := mem_availSpots.mp (by rw [hsplit]; simp)
  exact ⟨m, b, i, hm, hidx, hb.1 ▸ lt_length_of_getCell hi (by decide), hi⟩

theorem minimax_idx_empty_witness :
    IsBoard blockBoard ∧ checkWinFor blockBoard Player.X = false ∧
      checkWinFor blockBoard Player.O = false ∧ Cell.empty ∈ blockBoard ∧
      ∃ m after i, minimax blockBoard Player.O = some (m, after) ∧ m.idx = some i ∧ i < 9 ∧
        getCell blockBoard i = Cell.empty :=
  ⟨by decide, by decide, by decide, by decide,
    minimax_idx_empty blockBoard Player.O (by decide) (by decide) (by decide) (by decide)⟩

/-- C5: on `[X,X,_,O,O,_,_,_,_]` with O to move, `minimax` returns `idx` 2. -/
theorem minimax_blockBoard :
    minimax blockBoard Player.O = some ({ idx := some 2, score := 10 }, blockBoard) := by
  decide!

/-- C6: the score `minimax` returns is the reference game value `V`, which is
`-10` if X has a line, else `+10` if O has one, else `0` if no cell is empty,
else the maximum (O to move) or minimum (X to move) of the values of the
children; the array is handed back unchanged, and in the three base cases the
result carries no move and is produced without a recursive call. -/
theorem minimax_score_eq_V (b : Board) (p : Player) :
    (∃ m, minimax b p = some (m, b) ∧ m.score = V b p ∧
      ((checkWinFor b Player.X = true ∨ checkWinFor b Player.O = true ∨ Cell.empty ∉ b) →
        m.idx = none ∧ minimaxAux 1 b p = some (m, b))) ∧
    V b p =
      (if checkWinFor b Player.X then -10
      else if checkWinFor b Player.O then 10
      else if Cell.empty ∉ b then 0
      else
        match p with
        | Player.O => listMax ((availSpots b).map fun i => V (b.set i Player.O.toCell) Player.X)
        | Player.X =>
          listMin ((availSpots b).map fun i => V (b.set i Player.X.toCell) Player.O)) := by
  have hiff : availSpots b = [] ↔ Cell.empty ∉ b := by
    rw [← availSpots_ne_nil_iff]
    exact not_not.symm
  constructor
  · obtain ⟨m, hm, hsc, hterm, _⟩ := minimax_spec b p
    refine ⟨m, hm, hsc, fun h => ?_⟩
    have h' : checkWinFor b Player.X = true ∨ checkWinFor b Player.O = true ∨
        availSpots b = [] := by
      rcases h with h | h | h
      · exact Or.inl h
      · exact Or.inr (Or.inl h)
      · exact Or.inr (Or.inr (hiff.mpr h))
    refine ⟨hterm h', ?_⟩
    have hidx := hterm h'
    rw [V_eq] at hsc
    have hm_eq : m = ⟨none, m.score⟩ := by
      cases m
      simp_all
    by_cases hX : checkWinFor b Player.X = true
    · rw [hm_eq, hsc]; simp [minimaxAux, hX]
    by_cases hO : checkWinFor b Player.O = true
    · rw [hm_eq, hsc]; simp [minimaxAux, hX, hO]
    have hA : availSpots b = [] := by
      rcases h' with h1 | h1 | h1
      · exact absurd h1 hX
      · exact absurd h1 hO
      · exact h1
    rw [hm_eq, hsc]; simp [minimaxAux, hX, hO, hA]
  · rw [V_eq]
    by_cases hA : availSpots b = []
    · have := hiff.mp hA
      simp [hA, this]
    · have : ¬ Cell.empty ∉ b := fun h => hA (hiff.mpr h)
      simp only [hA, this, if_false]

/-- On a position that is not terminal `minimax` returns the first available
spot whose child has the value of the position. -/
theorem minimax_first_extremal (b : Board) (p : Player)
    (hX : checkWinFor b Player.X = false) (hO : checkWinFor b Player.O = false)
    (he : Cell.empty ∈ b) :
    ∃ m i, minimax b p = some (m, b) ∧ m.idx = some i ∧ getCell b i = Cell.empty ∧
      m.score = V b p ∧ childValue b p i = V b p ∧
      ∀ j, j < i → getCell b j = Cell.empty → childValue b p j ≠ V b p := by
  obtain ⟨m, hm, hsc, _, hnt⟩ := minimax_spec b p
  obtain ⟨pre, i, post, hsplit, hidx, hval, hpre⟩ := hnt hX hO (availSpots_ne_nil_iff.mpr he)
  have hi : getCell b i = Cell.empty := mem_availSpots.mp (by rw [hsplit]; simp)
  refine ⟨m, i, hm, hidx, hi, hsc, hval, ?_⟩
  intro j hji hj
  have hsorted := availSpots_sorted b
  rw [hsplit, List.pairwise_append] at hsorted
  have hjmem : j ∈ pre ++ i :: post := hsplit ▸ mem_availSpots.mpr hj
  rcases List.mem_append.mp hjmem with hjp | hjp
  · exact hpre j hjp
  · exfalso
    rcases List.mem_cons.mp hjp with rfl | hjp
    · exact lt_irrefl _ hji
    · have := (List.pairwise_cons.mp hsorted.2.1).1 j hjp
      omega

/-- C7: on a position that is not terminal, the `idx` that `minimax` returns is
the lowest-indexed empty cell whose child has the extremal score: no child
scores higher (O to move) or lower (X to move), and every empty cell before it
scores differently.  The score of a child is the one `minimax` returns on it. -/
theorem minimax_idx_lowest_extremal (b : Board) (p : Player)
    (hX : checkWinFor b Player.X = false) (hO : checkWinFor b Player.O = false)
    (he : Cell.empty ∈ b) :
    ∃ m i, minimax b p = some (m, b) ∧ m.idx = some i ∧ getCell b i = Cell.empty ∧
      m.score = childValue b p i ∧
      (∀ j, getCell b j = Cell.empty →
        (∃ mj, minimax (b.set j p.toCell) p.other = some (mj, b.set j p.toCell) ∧
          mj.score = childValue b p j) ∧
        (p = Player.O → childValue b p j ≤ childValue b p i) ∧
        (p = Player.X → childValue b p i ≤ childValue b p j)) ∧
      ∀ j, j < i → getCell b j = Cell.empty → childValue b p j ≠ childValue b p i := by
  obtain ⟨m, i, hm, hidx, hi, hsc, hval, hfirst⟩ := minimax_first_extremal b p hX hO he
  refine ⟨m, i, hm, hidx, hi, by rw [hsc, hval], ?_, ?_⟩
  · intro j hj
    obtain ⟨mj, hmj, hmjs, _⟩ := minimax_spec (b.set j p.toCell) p.other
    have hb := V_bounds_children b p hX hO j hj
    rw [← hval] at hb
    exact ⟨⟨mj, hmj, hmjs⟩, hb⟩
  · intro j hji hj
    rw [hval]
    exact hfirst j hji hj

theorem minimax_idx_lowest_extremal_witness :
    checkWinFor blockBoard Player.X = false ∧ checkWinFor blockBoard Player.O = false ∧
      Cell.empty ∈ blockBoard ∧
      ∃ m i, minimax blockBoard Player.O = some (m, blockBoard) ∧ m.idx = some i ∧
        getCell blockBoard i = Cell.empty ∧ m.score = childValue blockBoard Player.O i ∧
        (∀ j, getCell blockBoard j = Cell.empty →
          (∃ mj, minimax (blockBoard.set j Player.O.toCell) Player.O.other =
              some (mj, blockBoard.set j Player.O.toCell) ∧
            mj.score = childValue blockBoard Player.O j) ∧
          (Player.O = Player.O → childValue blockBoard Player.O j ≤ childValue blockBoard Player.O i) ∧
          (Player.O = Player.X →
            childValue blockBoard Player.O i ≤ childValue blockBoard Player.O j)) ∧
        ∀ j, j < i → getCell blockBoard j = Cell.empty →
          childValue blockBoard Player.O j ≠ childValue blockBoard Player.O i :=
  ⟨by decide, by decide, by decide,
    minimax_idx_lowest_extremal blockBoard Player.O (by decide) (by decide) (by decide)⟩

/-! ## The click handler -/

theorem any_or_distrib {α : Type} (l : List α) (f g : α → Bool) :
    l.any (fun x => f x || g x) = (l.any f || l.any g) := by
  induction l with
  | nil => rfl
  | cons x xs ih =>
    simp only [List.any_cons, ih]
    cases f x <;> cases g x <;> cases xs.any f <;> cases xs.any g <;> rfl

theorem lineComplete_eq (b : Board) (t : Nat × Nat × Nat) :
    lineComplete b t =
      ((getCell b t.1 == Cell.X && getCell b t.2.1 == Cell.X && getCell b t.2.2 == Cell.X) ||
        (getCell b t.1 == Cell.O && getCell b t.2.1 == Cell.O && getCell b t.2.2 == Cell.O)) := by
  obtain ⟨a, c, d⟩ := t
  simp only [lineComplete]
  cases getCell b a <;> cases getCell b c <;> cases getCell b d <;> rfl

/-- The loop of `checkWinner` finds a line exactly when one of the two players
has one according to `checkWinFor`. -/
theorem checkWinner_fst (s : State) :
    (checkWinner s).1 = (checkWinFor s.board Player.X || checkWinFor s.board Player.O) := by
  have hany : (WIN_COMBOS.find? (lineComplete s.board)).isSome =
      WIN_COMBOS.any (lineComplete s.board) := by
    rw [Bool.eq_iff_iff]
    simp [List.find?_isSome, List.any_eq_true]
  have hsplit : WIN_COMBOS.any (lineComplete s.board) =
      (checkWinFor s.board Player.X || checkWinFor s.board Player.O) := by
    have hfun : lineComplete s.board = fun t =>
        ((getCell s.board t.1 == Cell.X && getCell s.board t.2.1 == Cell.X &&
            getCell s.board t.2.2 == Cell.X) ||
          (getCell s.board t.1 == Cell.O && getCell s.board t.2.1 == Cell.O &&
            getCell s.board t.2.2 == Cell.O)) := funext (lineComplete_eq s.board)
    rw [hfun, any_or_distrib]
    rfl
  rw [← hsplit, ← hany]
  unfold checkWinner
  cases h : WIN_COMBOS.find? (lineComplete s.board) with
  | none => rfl
  | some t => rfl

/-- The function `checkWinner` changes `winnerLine` only. -/
theorem checkWinner_snd (s : State) :
    (checkWinner s).2 = { s with winnerLine := (checkWinner s).2.winnerLine } := by
  unfold checkWinner
  cases h : WIN_COMBOS.find? (lineComplete s.board) with
  | none => rfl
  | some t => rfl

theorem boardFull_eq_false_iff (b : Board) : boardFull b = false ↔ Cell.empty ∈ b := by
  induction b with
  | nil => simp [boardFull]
  | cons c cs ih =>
    have hstep : boardFull (c :: cs) = ((c == Cell.undef || c.truthy) && boardFull cs) := rfl
    rw [hstep, List.mem_cons]
    cases c <;> simp [Cell.truthy, ih]

/-- The three outcomes of a click that is not rejected, in terms of the board
after the mark is stored. -/
theorem onCellClick_accepted (s : State) (idx : Int) (hact : s.gameActive = true)
    (hfree : (s.boardGet idx).truthy = false) :
    ∃ line msg flags,
      onCellClick s idx =
        if checkWinFor (s.boardPut idx s.currentPlayer.toCell).board Player.X ||
            checkWinFor (s.boardPut idx s.currentPlayer.toCell).board Player.O then
          ({ s.boardPut idx s.currentPlayer.toCell with
              winnerLine := line, status := msg, cellsDisabled := flags,
              gameActive := false }, false)
        else if boardFull (s.boardPut idx s.currentPlayer.toCell).board then
          ({ s.boardPut idx s.currentPlayer.toCell with
              winnerLine := [], status := "Draw!", cellsDisabled := flags,
              gameActive := false }, false)
        else
          ({ s.boardPut idx s.currentPlayer.toCell with
              winnerLine := [], status := msg, cellsDisabled := flags,
              currentPlayer := s.currentPlayer.other },
            s.mode == some Mode.ai && s.currentPlayer.other == Player.O) := by
  have hput : (s.boardPut idx s.currentPlayer.toCell).gameActive = true ∧
      (s.boardPut idx s.currentPlayer.toCell).currentPlayer = s.currentPlayer ∧
      (s.boardPut idx s.currentPlayer.toCell).mode = s.mode := by
    unfold State.boardPut
    split <;> exact ⟨hact, rfl, rfl⟩
  have hother : (if s.currentPlayer = Player.X then Player.O else Player.X) =
      s.currentPlayer.other := by
    cases s.currentPlayer <;> rfl
  unfold onCellClick
  simp only [hact, hfree, Bool.not_true, Bool.false_or, Bool.false_eq_true, if_false]
  generalize s.boardPut idx s.currentPlayer.toCell = s1 at hput ⊢
  obtain ⟨h1, h2, h3⟩ := hput
  have hw := checkWinner_fst (renderBoard s1)
  have hs := checkWinner_snd (renderBoard s1)
  have hline : (checkWinner (renderBoard s1)).1 = false →
      (checkWinner (renderBoard s1)).2.winnerLine = [] := by
    unfold checkWinner
    split
    · intro h; cases h
    · intro _; rfl
  rcases hcw : checkWinner (renderBoard s1) with ⟨w, s3⟩
  rw [hcw] at hw hs hline
  simp only at hw hs hline
  have hwin : (checkWinFor s1.board Player.X || checkWinFor s1.board Player.O) = w := by
    rw [hw]; rfl
  obtain ⟨b1, bp1, cp1, ga1, m1, wl1, st1, cd1⟩ := s1
  simp only at h1 h2 h3 hwin
  subst h1 h2 h3
  cases w with
  | true =>
    refine ⟨s3.winnerLine, "Winner: " ++ s3.currentPlayer.toStr,
      (highlightWinner (updateStatus s3 ("Winner: " ++ s3.currentPlayer.toStr))).cellsDisabled, ?_⟩
    rw [if_pos hwin]
    rw [hs]
    rfl
  | false =>
    have hl := hline rfl
    refine ⟨[], "Current turn: " ++ s.currentPlayer.other.toStr, (renderBoard s3).cellsDisabled, ?_⟩
    rw [hwin]
    simp only [Bool.false_eq_true, if_false]
    have hb3 : s3.board = b1 := by rw [hs]; rfl
    rw [hb3]
    by_cases hfull : boardFull b1 = true
    · simp only [hfull, if_true]
      rw [hs, hl]
      rfl
    · simp only [hfull, if_false, Bool.false_eq_true]
      rw [hs, hl]
      simp [updateStatus, renderBoard, hother]

theorem boardGet_natCast (s : State) (i : Nat) : s.boardGet (i : Int) = getCell s.board i := by
  simp [State.boardGet]

theorem boardPut_natCast (s : State) (i : Nat) (v : Cell) :
    s.boardPut (i : Int) v = { s with board := arraySet s.board i v } := by
  simp [State.boardPut]

theorem boardPut_fields (s : State) (idx : Int) (v : Cell) :
    (s.boardPut idx v).currentPlayer = s.currentPlayer ∧ (s.boardPut idx v).mode = s.mode ∧
      (s.boardPut idx v).gameActive = s.gameActive := by
  unfold State.boardPut
  split <;> exact ⟨rfl, rfl, rfl⟩

/-- What an accepted click does to the fields the game logic reads. -/
theorem onCellClick_accepted_fields (s : State) (idx : Int) (hact : s.gameActive = true)
    (hfree : (s.boardGet idx).truthy = false) :
    (onCellClick s idx).1.board = (s.boardPut idx s.currentPlayer.toCell).board ∧
    (onCellClick s idx).1.boardProps = (s.boardPut idx s.currentPlayer.toCell).boardProps ∧
    (onCellClick s idx).1.mode = s.mode ∧
    (((checkWinFor (s.boardPut idx s.currentPlayer.toCell).board Player.X ||
          checkWinFor (s.boardPut idx s.currentPlayer.toCell).board Player.O) = true ∨
        boardFull (s.boardPut idx s.currentPlayer.toCell).board = true) →
      (onCellClick s idx).1.gameActive = false ∧
        (onCellClick s idx).1.currentPlayer = s.currentPlayer ∧ (onCellClick s idx).2 = false) ∧
    ((checkWinFor (s.boardPut idx s.currentPlayer.toCell).board Player.X ||
          checkWinFor (s.boardPut idx s.currentPlayer.toCell).board Player.O) = false →
        boardFull (s.boardPut idx s.currentPlayer.toCell).board = false →
      (onCellClick s idx).1.gameActive = true ∧
        (onCellClick s idx).1.currentPlayer = s.currentPlayer.other ∧
        (onCellClick s idx).2 = (s.mode == some Mode.ai && s.currentPlayer.other == Player.O)) := by
  obtain ⟨line, msg, flags, h⟩ := onCellClick_accepted s idx hact hfree
  obtain ⟨hcp, hmode, hga⟩ := boardPut_fields s idx s.currentPlayer.toCell
  rw [h]
  split_ifs with hw hf
  · simp [hw, hcp, hmode]
  · simp [hw, hf, hcp, hmode]
  · simp [hw, hf, hcp, hmode, hga, hact]

/-- C8: a click is rejected as a whole when the game is not active or the cell
already holds a mark: the state is returned unchanged and no AI move is
scheduled. -/
theorem onCellClick_rejected (s : State) (idx : Nat) (hidx : idx < 9)
    (h : s.gameActive = false ∨ getCell s.board idx = Cell.X ∨ getCell s.board idx = Cell.O) :
    onCellClick s (idx : Int) = (s, false) := by
  have _ := hidx
  unfold onCellClick
  rw [boardGet_natCast]
  rcases h with h | h | h <;> simp [h, Cell.truthy]

theorem onCellClick_rejected_witness :
    (4 < 9 ∧ (centreTaken.gameActive = false ∨ getCell centreTaken.board 4 = Cell.X ∨
        getCell centreTaken.board 4 = Cell.O)) ∧
      onCellClick centreTaken ((4 : Nat) : Int) = (centreTaken, false) :=
  ⟨⟨by decide, Or.inr (Or.inl (by decide))⟩,
    onCellClick_rejected centreTaken 4 (by decide) (Or.inr (Or.inl (by decide)))⟩

/-- C9, as stated, fails: on a fresh active game a click with index 9 grows the
board to ten slots and passes the turn to O, and a click with index -1 passes
the turn to O as well. -/
theorem onCellClick_out_of_range_changes_state :
    (initGame State.initial Mode.pvp).gameActive = true ∧
      (initGame State.initial Mode.pvp).board.length = 9 ∧
      (onCellClick (initGame State.initial Mode.pvp) 9).1.board.length = 10 ∧
      (onCellClick (initGame State.initial Mode.pvp) 9).1.currentPlayer ≠
        (initGame State.initial Mode.pvp).currentPlayer ∧
      (onCellClick (initGame State.initial Mode.pvp) (-1)).1.currentPlayer ≠
        (initGame State.initial Mode.pvp).currentPlayer := by
  decide

theorem getCell_arraySet_past (b : Board) (k i : Nat) (v : Cell) (hk : b.length ≤ k)
    (hi : i < b.length) : getCell (arraySet b k v) i = getCell b i := by
  have h1 : ¬ k < b.length := Nat.not_lt.mpr hk
  simp [arraySet, h1, getCell, List.getD_eq_getElem?_getD, List.getElem?_append_left, hi]

theorem getCell_arraySet_self (b : Board) (k : Nat) (v : Cell) :
    getCell (arraySet b k v) k = v := by
  by_cases hk : k < b.length
  · simp [arraySet, hk, getCell_set_self]
  · have hlen : (b ++ List.replicate (k - b.length) Cell.undef).length = k := by
      simp; omega
    have hget := @List.getElem?_append_right _ (b ++ List.replicate (k - b.length) Cell.undef)
      [v] k (by omega)
    rw [hlen, Nat.sub_self] at hget
    unfold arraySet getCell
    rw [if_neg hk, List.getD_eq_getElem?_getD, hget]
    rfl

theorem boardFull_arraySet_past (b : Board) (k : Nat) (p : Player) (hk : b.length ≤ k) :
    boardFull (arraySet b k p.toCell) = boardFull b := by
  have h1 : ¬ k < b.length := Nat.not_lt.mpr hk
  cases p <;>
    simp [arraySet, h1, boardFull, List.all_append, Player.toCell, Cell.truthy]

/-- The helper `checkWinFor` reads cells 0 to 8 only. -/
theorem checkWinFor_congr (b c : Board) (p : Player)
    (h : ∀ i, i < 9 → getCell b i = getCell c i) : checkWinFor b p = checkWinFor c p := by
  simp [checkWinFor, WIN_COMBOS, h 0, h 1, h 2, h 3, h 4, h 5, h 6, h 7, h 8]

/-- C9, amended: `onCellClick` has no range check.  On an active state with a
9-cell board, a click whose index lies outside `[0,9)` and whose slot holds no
mark is accepted: cells 0 to 8 keep their contents, the mover's mark is stored
under that index, and unless the board has a winning line or no empty cell the
turn passes to the other player with the game still active. -/
theorem onCellClick_out_of_range (s : State) (idx : Int) (hact : s.gameActive = true)
    (hlen : s.board.length = 9) (hidx : idx < 0 ∨ 9 ≤ idx)
    (hfree : (s.boardGet idx).truthy = false) :
    (∀ i, i < 9 → getCell (onCellClick s idx).1.board i = getCell s.board i) ∧
    (onCellClick s idx).1.boardGet idx = s.currentPlayer.toCell ∧
    (checkWinFor s.board Player.X = false → checkWinFor s.board Player.O = false →
      Cell.empty ∈ s.board →
      (onCellClick s idx).1.currentPlayer = s.currentPlayer.other ∧
        (onCellClick s idx).1.gameActive = true) := by
  obtain ⟨hb, hp, _, _, hgo⟩ := onCellClick_accepted_fields s idx hact hfree
  have hcells : ∀ i, i < 9 →
      getCell (s.boardPut idx s.currentPlayer.toCell).board i = getCell s.board i := by
    intro i hi
    unfold State.boardPut
    split
    · next h0 =>
      have h9 : 9 ≤ idx := by omega
      exact getCell_arraySet_past _ _ _ _ (by omega) (by omega)
    · rfl
  have hfull : boardFull (s.boardPut idx s.currentPlayer.toCell).board = boardFull s.board := by
    unfold State.boardPut
    split
    · next h0 =>
      have h9 : 9 ≤ idx := by omega
      exact boardFull_arraySet_past _ _ _ (by omega)
    · rfl
  refine ⟨fun i hi => by rw [hb]; exact hcells i hi, ?_, ?_⟩
  · unfold State.boardGet
    rw [hb, hp]
    unfold State.boardPut
    by_cases h0 : 0 ≤ idx
    · simp only [h0, if_true]
      exact getCell_arraySet_self _ _ _
    · simp [h0]
  · intro hX hO he
    have hX' := checkWinFor_congr _ _ Player.X hcells
    have hO' := checkWinFor_congr _ _ Player.O hcells
    have := hgo (by rw [hX', hO', hX, hO]; rfl)
      (by rw [hfull]; exact (boardFull_eq_false_iff _).mpr he)
    exact ⟨this.2.1, this.1⟩

theorem onCellClick_out_of_range_witness :
    ((initGame State.initial Mode.pvp).gameActive = true ∧
        (initGame State.initial Mode.pvp).board.length = 9 ∧ ((9 : Int) < 0 ∨ (9 : Int) ≤ 9) ∧
        ((initGame State.initial Mode.pvp).boardGet 9).truthy = false) ∧
      (∀ i, i < 9 → getCell (onCellClick (initGame State.initial Mode.pvp) 9).1.board i =
        getCell (initGame State.initial Mode.pvp).board i) ∧
      (onCellClick (initGame State.initial Mode.pvp) 9).1.boardGet 9 =
        (initGame State.initial Mode.pvp).currentPlayer.toCell ∧
      (checkWinFor (initGame State.initial Mode.pvp).board Player.X = false →
        checkWinFor (initGame State.initial Mode.pvp).board Player.O = false →
        Cell.empty ∈ (initGame State.initial Mode.pvp).board →
        (onCellClick (initGame State.initial Mode.pvp) 9).1.currentPlayer =
            (initGame State.initial Mode.pvp).currentPlayer.other ∧
          (onCellClick (initGame State.initial Mode.pvp) 9).1.gameActive = true) :=
  ⟨⟨by decide, by decide, by decide, by decide⟩,
    onCellClick_out_of_range (initGame State.initial Mode.pvp) 9 (by decide) (by decide)
      (by decide) (by decide)⟩

/-- C10: an accepted click on an empty cell writes the mover's mark there and
leaves the other cells and the mode unchanged; if the resulting board has no
winning line and still has an empty cell, the turn passes to the other player
and the game stays active. -/
theorem onCellClick_places_mark (s : State) (idx : Nat) (hidx : idx < 9)
    (hact : s.gameActive = true) (hempty : getCell s.board idx = Cell.empty) :
    (onCellClick s (idx : Int)).1.board = s.board.set idx s.currentPlayer.toCell ∧
    getCell (onCellClick s (idx : Int)).1.board idx = s.currentPlayer.toCell ∧
    (∀ j, j ≠ idx → getCell (onCellClick s (idx : Int)).1.board j = getCell s.board j) ∧
    (onCellClick s (idx : Int)).1.mode = s.mode ∧
    (checkWinFor (onCellClick s (idx : Int)).1.board Player.X = false →
      checkWinFor (onCellClick s (idx : Int)).1.board Player.O = false →
      Cell.empty ∈ (onCellClick s (idx : Int)).1.board →
      (onCellClick s (idx : Int)).1.currentPlayer = s.currentPlayer.other ∧
        (onCellClick s (idx : Int)).1.gameActive = true) := by
  have _ := hidx
  have hlt : idx < s.board.length := lt_length_of_getCell hempty (by decide)
  have hfree : (s.boardGet (idx : Int)).truthy = false := by
    rw [boardGet_natCast, hempty]; rfl
  obtain ⟨hb, _, hm, _, hgo⟩ := onCellClick_accepted_fields s idx hact hfree
  have hput : (s.boardPut (idx : Int) s.currentPlayer.toCell).board =
      s.board.set idx s.currentPlayer.toCell := by
    rw [boardPut_natCast]
    simp [arraySet, hlt]
  rw [hput] at hb hgo
  refine ⟨hb, ?_, ?_, hm, ?_⟩
  · rw [hb]; exact getCell_set_self _ _ _ hlt
  · intro j hj
    rw [hb]; exact getCell_set_other _ _ _ _ (Ne.symm hj)
  · intro hX hO he
    rw [hb] at hX hO he
    have := hgo (by rw [hX, hO]; rfl) ((boardFull_eq_false_iff _).mpr he)
    exact ⟨this.2.1, this.1⟩

theorem onCellClick_places_mark_witness :
    (4 < 9 ∧ (initGame State.initial Mode.ai).gameActive = true ∧
        getCell (initGame State.initial Mode.ai).board 4 = Cell.empty) ∧
      (onCellClick (initGame State.initial Mode.ai) ((4 : Nat) : Int)).1.board =
        (initGame State.initial Mode.ai).board.set 4
          (initGame State.initial Mode.ai).currentPlayer.toCell ∧
      getCell (onCellClick (initGame State.initial Mode.ai) ((4 : Nat) : Int)).1.board 4 =
        (initGame State.initial Mode.ai).currentPlayer.toCell ∧
      (∀ j, j ≠ 4 →
        getCell (onCellClick (initGame State.initial Mode.ai) ((4 : Nat) : Int)).1.board j =
          getCell (initGame State.initial Mode.ai).board j) ∧
      (onCellClick (initGame State.initial Mode.ai) ((4 : Nat) : Int)).1.mode =
        (initGame State.initial Mode.ai).mode ∧
      (checkWinFor (onCellClick (initGame State.initial Mode.ai) ((4 : Nat) : Int)).1.board
          Player.X = false →
        checkWinFor (onCellClick (initGame State.initial Mode.ai) ((4 : Nat) : Int)).1.board
          Player.O = false →
        Cell.empty ∈ (onCellClick (initGame State.initial Mode.ai) ((4 : Nat) : Int)).1.board →
        (onCellClick (initGame State.initial Mode.ai) ((4 : Nat) : Int)).1.currentPlayer =
            (initGame State.initial Mode.ai).currentPlayer.other ∧
          (onCellClick (initGame State.initial Mode.ai) ((4 : Nat) : Int)).1.gameActive = true) :=
  ⟨⟨by decide, by decide, by decide⟩,
    onCellClick_places_mark (initGame State.initial Mode.ai) 4 (by decide) (by decide)
      (by decide)⟩

/-! ## Soundness of the bounded searches -/

theorem Cell.seq_forces {α : Type} (c : Cell) (k : Cell → α) : c.seq k = k c := by
  cases c <;> rfl

theorem Grid.seq_forces_all {α : Type} (g : Grid) (k : Grid → α) : g.seq k = k g := by
  cases g
  simp [Grid.seq, Cell.seq_forces]

theorem Grid.get_past (g : Grid) (i : Nat) (h : 9 ≤ i) : g.get i = Cell.undef := by
  obtain ⟨k, rfl⟩ : ∃ k, i = k + 9 := ⟨i - 9, by omega⟩
  rfl

theorem Grid.getCell_toBoard (g : Grid) (i : Nat) : getCell g.toBoard i = g.get i := by
  by_cases h : i < 9
  · interval_cases i <;> rfl
  · rw [Grid.get_past g i (by omega)]
    have hlen : g.toBoard.length ≤ i := by
      have : g.toBoard.length = 9 := rfl
      omega
    simp [getCell, List.getD_eq_getElem?_getD, List.getElem?_eq_none hlen]

theorem Grid.set_toBoard (g : Grid) (i : Nat) (v : Cell) :
    (g.set i v).toBoard = g.toBoard.set i v := by
  by_cases h : i < 9
  · interval_cases i <;> rfl
  · obtain ⟨k, rfl⟩ : ∃ k, i = k + 9 := ⟨i - 9, by omega⟩
    rfl

theorem Cell.isMark_eq (p : Player) (c : Cell) : c.isMark p = (c == p.toCell) := by
  cases c <;> cases p <;> rfl

theorem Grid.wins_eq (g : Grid) (p : Player) : checkWinFor g.toBoard p = g.wins p := by
  cases g
  simp [checkWinFor, WIN_COMBOS, getCell, Grid.toBoard, Grid.wins, lineOf, Cell.isMark_eq,
    Bool.or_assoc]

theorem Grid.mem_children (g c : Grid) (v : Cell) :
    c ∈ g.children v ↔ ∃ i, g.get i = Cell.empty ∧ c = g.set i v := by
  unfold Grid.children
  rw [List.mem_filterMap]
  constructor
  · rintro ⟨i, _, hi⟩
    by_cases he : (g.get i).isEmpty = true
    · rw [if_pos he] at hi
      refine ⟨i, ?_, (Option.some.inj hi).symm⟩
      revert he
      cases g.get i <;> simp [Cell.isEmpty]
    · rw [if_neg he] at hi
      cases hi
  · rintro ⟨i, hi, rfl⟩
    have hlt : i < 9 := by
      by_contra h
      rw [Grid.get_past g i (by omega)] at hi
      cases hi
    refine ⟨i, ?_, by simp [hi, Cell.isEmpty]⟩
    interval_cases i <;> decide

theorem V_of_winX (b : Board) (p : Player) (h : checkWinFor b Player.X = true) :
    V b p = -10 := by
  rw [V_eq]; simp [h]

theorem V_of_winO (b : Board) (p : Player) (hX : checkWinFor b Player.X = false)
    (h : checkWinFor b Player.O = true) : V b p = 10 := by
  rw [V_eq]; simp [hX, h]

theorem V_of_full (b : Board) (p : Player) (hX : checkWinFor b Player.X = false)
    (hO : checkWinFor b Player.O = false) (h : availSpots b = []) : V b p = 0 := by
  rw [V_eq]; simp [hX, hO, h]

/-- On a position that is not terminal the value is the value of some child. -/
theorem V_attained (b : Board) (p : Player) (hX : checkWinFor b Player.X = false)
    (hO : checkWinFor b Player.O = false) (hA : availSpots b ≠ []) :
    ∃ i, getCell b i = Cell.empty ∧ childValue b p i = V b p := by
  obtain ⟨m, _, _, _, hnt⟩ := minimax_spec b p
  obtain ⟨pre, i, post, hsplit, _, hval, _⟩ := hnt hX hO hA
  exact ⟨i, mem_availSpots.mp (by rw [hsplit]; simp), hval⟩

theorem Grid.children_nil (g : Grid) (v : Cell) (h : g.children v = []) :
    availSpots g.toBoard = [] := by
  by_contra hne
  obtain ⟨i, hi⟩ := List.exists_mem_of_ne_nil _ hne
  have hget : g.get i = Cell.empty := by
    rw [← Grid.getCell_toBoard]; exact mem_availSpots.mp hi
  have : g.set i v ∈ g.children v := (Grid.mem_children g _ v).mpr ⟨i, hget, rfl⟩
  rw [h] at this
  cases this

theorem Grid.children_cons (g : Grid) (v : Cell) (k : Grid) (ks : List Grid)
    (h : g.children v = k :: ks) : availSpots g.toBoard ≠ [] := by
  have hk : k ∈ g.children v := by rw [h]; exact List.mem_cons_self _ _
  obtain ⟨i, hi, _⟩ := (Grid.mem_children g k v).mp hk
  have : i ∈ availSpots g.toBoard := mem_availSpots.mpr (by rw [Grid.getCell_toBoard]; exact hi)
  exact List.ne_nil_of_mem this

/-- A `true` answer of `valueAtLeast` is a lower bound on the reference value. -/
theorem valueAtLeast_sound (n : Nat) (g : Grid) (p : Player) (t : Int)
    (h : valueAtLeast n g p t = true) : t ≤ V g.toBoard p := by
  induction n generalizing g p with
  | zero => simp [valueAtLeast] at h
  | succ n ih =>
    rw [valueAtLeast, Grid.seq_forces_all] at h
    by_cases hX : g.wins Player.X = true
    · rw [V_of_winX _ _ (by rw [Grid.wins_eq]; exact hX)]
      simpa [hX] using h
    have hX' : checkWinFor g.toBoard Player.X = false := by
      rw [Grid.wins_eq]; simpa using hX
    by_cases hO : g.wins Player.O = true
    · rw [V_of_winO _ _ hX' (by rw [Grid.wins_eq]; exact hO)]
      simpa [hX, hO] using h
    have hO' : checkWinFor g.toBoard Player.O = false := by
      rw [Grid.wins_eq]; simpa using hO
    simp only [hX, hO, if_false, Bool.false_eq_true] at h
    cases p with
    | O =>
      simp only at h
      cases hk : g.children Cell.O with
      | nil =>
        rw [hk] at h
        rw [V_of_full _ _ hX' hO' (Grid.children_nil g _ hk)]
        simpa using h
      | cons k ks =>
        rw [hk] at h
        simp only at h
        rw [← hk] at h
        obtain ⟨c, hc, hcv⟩ := List.any_eq_true.mp h
        obtain ⟨i, hi, rfl⟩ := (Grid.mem_children g c _).mp hc
        have hle := ih _ _ hcv
        rw [Grid.set_toBoard] at hle
        have hb := (V_bounds_children g.toBoard Player.O hX' hO' i
          (by rw [Grid.getCell_toBoard]; exact hi)).1 rfl
        exact le_trans hle hb
    | X =>
      simp only at h
      cases hk : g.children Cell.X with
      | nil =>
        rw [hk] at h
        rw [V_of_full _ _ hX' hO' (Grid.children_nil g _ hk)]
        simpa using h
      | cons k ks =>
        rw [hk] at h
        simp only at h
        rw [← hk] at h
        obtain ⟨i, hi, hval⟩ := V_attained g.toBoard Player.X hX' hO'
          (Grid.children_cons g _ k ks hk)
        have hmem : g.set i Cell.X ∈ g.children Cell.X :=
          (Grid.mem_children g _ _).mpr ⟨i, by rw [← Grid.getCell_toBoard]; exact hi, rfl⟩
        have hle := ih _ _ (List.all_eq_true.mp h _ hmem)
        rw [Grid.set_toBoard] at hle
        rw [← hval]
        exact hle

/-- A `true` answer of `valueAtMost` is an upper bound on the reference value. -/
theorem valueAtMost_sound (n : Nat) (g : Grid) (p : Player) (t : Int)
    (h : valueAtMost n g p t = true) : V g.toBoard p ≤ t := by
  induction n generalizing g p with
  | zero => simp [valueAtMost] at h
  | succ n ih =>
    rw [valueAtMost, Grid.seq_forces_all] at h
    by_cases hX : g.wins Player.X = true
    · rw [V_of_winX _ _ (by rw [Grid.wins_eq]; exact hX)]
      simpa [hX] using h
    have hX' : checkWinFor g.toBoard Player.X = false := by
      rw [Grid.wins_eq]; simpa using hX
    by_cases hO : g.wins Player.O = true
    · rw [V_of_winO _ _ hX' (by rw [Grid.wins_eq]; exact hO)]
      simpa [hX, hO] using h
    have hO' : checkWinFor g.toBoard Player.O = false := by
      rw [Grid.wins_eq]; simpa using hO
    simp only [hX, hO, if_false, Bool.false_eq_true] at h
    cases p with
    | X =>
      simp only at h
      cases hk : g.children Cell.X with
      | nil =>
        rw [hk] at h
        rw [V_of_full _ _ hX' hO' (Grid.children_nil g _ hk)]
        simpa using h
      | cons k ks =>
        rw [hk] at h
        simp only at h
        rw [← hk] at h
        obtain ⟨c, hc, hcv⟩ := List.any_eq_true.mp h
        obtain ⟨i, hi, rfl⟩ := (Grid.mem_children g c _).mp hc
        have hle := ih _ _ hcv
        rw [Grid.set_toBoard] at hle
        have hb := (V_bounds_children g.toBoard Player.X hX' hO' i
          (by rw [Grid.getCell_toBoard]; exact hi)).2 rfl
        exact le_trans hb hle
    | O =>
      simp only at h
      cases hk : g.children Cell.O with
      | nil =>
        rw [hk] at h
        rw [V_of_full _ _ hX' hO' (Grid.children_nil g _ hk)]
        simpa using h
      | cons k ks =>
        rw [hk] at h
        simp only at h
        rw [← hk] at h
        obtain ⟨i, hi, hval⟩ := V_attained g.toBoard Player.O hX' hO'
          (Grid.children_cons g _ k ks hk)
        have hmem : g.set i Cell.O ∈ g.children Cell.O :=
          (Grid.mem_children g _ _).mpr ⟨i, by rw [← Grid.getCell_toBoard]; exact hi, rfl⟩
        have hle := ih _ _ (List.all_eq_true.mp h _ hmem)
        rw [Grid.set_toBoard] at hle
        rw [← hval]
        exact hle

/-! ## Engine self-play -/

/-- The move of O is pinned down by bounds on the children: the chosen child
reaches `t`, every earlier child stays below `t`, no later child exceeds `t`. -/
theorem minimax_idx_of_bounds_O (b : Board) (i : Nat) (t : Int)
    (hX : checkWinFor b Player.X = false) (hO : checkWinFor b Player.O = false)
    (hi : getCell b i = Cell.empty) (hge : t ≤ childValue b Player.O i)
    (hlt : ∀ j, j < i → getCell b j = Cell.empty → childValue b Player.O j < t)
    (hle : ∀ j, i < j → getCell b j = Cell.empty → childValue b Player.O j ≤ t) :
    ∃ m, minimax b Player.O = some (m, b) ∧ m.idx = some i := by
  have he : Cell.empty ∈ b := (mem_iff_getCell (by decide)).mpr ⟨i, hi⟩
  obtain ⟨m, i0, hm, hidx, hi0, _, hval, hfirst⟩ := minimax_first_extremal b Player.O hX hO he
  have hmax := (V_bounds_children b Player.O hX hO i hi).1 rfl
  refine ⟨m, hm, ?_⟩
  rcases Nat.lt_trichotomy i0 i with h | h | h
  · have := hlt i0 h hi0
    rw [hval] at this
    omega
  · rw [hidx, h]
  · have h1 := hle i0 h hi0
    rw [hval] at h1
    exact absurd (le_antisymm hmax (le_trans h1 hge)) (hfirst i h hi)

/-- The move of X is pinned down by the mirrored bounds. -/
theorem minimax_idx_of_bounds_X (b : Board) (i : Nat) (t : Int)
    (hX : checkWinFor b Player.X = false) (hO : checkWinFor b Player.O = false)
    (hi : getCell b i = Cell.empty) (hge : childValue b Player.X i ≤ t)
    (hlt : ∀ j, j < i → getCell b j = Cell.empty → t < childValue b Player.X j)
    (hle : ∀ j, i < j → getCell b j = Cell.empty → t ≤ childValue b Player.X j) :
    ∃ m, minimax b Player.X = some (m, b) ∧ m.idx = some i := by
  have he : Cell.empty ∈ b := (mem_iff_getCell (by decide)).mpr ⟨i, hi⟩
  obtain ⟨m, i0, hm, hidx, hi0, _, hval, hfirst⟩ := minimax_first_extremal b Player.X hX hO he
  have hmin := (V_bounds_children b Player.X hX hO i hi).2 rfl
  refine ⟨m, hm, ?_⟩
  rcases Nat.lt_trichotomy i0 i with h | h | h
  · have := hlt i0 h hi0
    rw [hval] at this
    omega
  · rw [hidx, h]
  · have h1 := hle i0 h hi0
    rw [hval] at h1
    exact absurd (le_antisymm (le_trans hge h1) hmin) (hfirst i h hi)

theorem mem_searchOrder (j : Nat) (h : j < 9) : j ∈ searchOrder := by
  interval_cases j <;> decide

theorem Grid.get_empty_lt (g : Grid) (i : Nat) (h : g.get i = Cell.empty) : i < 9 := by
  by_contra hn
  rw [Grid.get_past g i (by omega)] at h
  cases h

theorem Cell.isEmpty_iff (c : Cell) : c.isEmpty = true ↔ c = Cell.empty := by
  cases c <;> simp [Cell.isEmpty]

/-- A `true` answer of `bestCert` fixes the cell `minimax` returns. -/
theorem bestCert_sound (n : Nat) (g : Grid) (p : Player) (i : Nat) (t : Int)
    (h : bestCert n g p i t = true) :
    checkWinFor g.toBoard Player.X = false ∧ checkWinFor g.toBoard Player.O = false ∧
      getCell g.toBoard i = Cell.empty ∧
      ∃ m, minimax g.toBoard p = some (m, g.toBoard) ∧ m.idx = some i := by
  unfold bestCert at h
  simp only [Bool.and_eq_true, Bool.not_eq_true'] at h
  obtain ⟨⟨⟨hi, hX⟩, hO⟩, hrest⟩ := h
  have hi' : getCell g.toBoard i = Cell.empty := by
    rw [Grid.getCell_toBoard]; exact (Cell.isEmpty_iff _).mp hi
  have hX' : checkWinFor g.toBoard Player.X = false := by rw [Grid.wins_eq]; exact hX
  have hO' : checkWinFor g.toBoard Player.O = false := by rw [Grid.wins_eq]; exact hO
  refine ⟨hX', hO', hi', ?_⟩
  cases p with
  | O =>
    simp only [Bool.and_eq_true] at hrest
    obtain ⟨hbest, hothers⟩ := hrest
    have hge := valueAtLeast_sound _ _ _ _ hbest
    rw [Grid.set_toBoard] at hge
    have hother : ∀ j, j ≠ i → getCell g.toBoard j = Cell.empty →
        childValue g.toBoard Player.O j ≤ (if j < i then t - 1 else t) := by
      intro j hji hj
      rw [Grid.getCell_toBoard] at hj
      have hmem := mem_searchOrder j (Grid.get_empty_lt g j hj)
      have := List.all_eq_true.mp hothers j hmem
      simp only [Bool.or_eq_true, beq_iff_eq, Bool.not_eq_true', hji, hj, false_or] at this
      have hcert := this.resolve_left (by decide)
      have hs := valueAtMost_sound _ _ _ _ hcert
      rw [Grid.set_toBoard] at hs
      exact hs
    apply minimax_idx_of_bounds_O g.toBoard i t hX' hO' hi' hge
    · intro j hji hj
      have := hother j (Nat.ne_of_lt hji) hj
      rw [if_pos hji] at this
      omega
    · intro j hij hj
      have := hother j (Nat.ne_of_gt hij) hj
      rw [if_neg (by omega)] at this
      exact this
  | X =>
    simp only [Bool.and_eq_true] at hrest
    obtain ⟨hbest, hothers⟩ := hrest
    have hge := valueAtMost_sound _ _ _ _ hbest
    rw [Grid.set_toBoard] at hge
    have hother : ∀ j, j ≠ i → getCell g.toBoard j = Cell.empty →
        (if j < i then t + 1 else t) ≤ childValue g.toBoard Player.X j := by
      intro j hji hj
      rw [Grid.getCell_toBoard] at hj
      have hmem := mem_searchOrder j (Grid.get_empty_lt g j hj)
      have := List.all_eq_true.mp hothers j hmem
      simp only [Bool.or_eq_true, beq_iff_eq, Bool.not_eq_true', hji, hj, false_or] at this
      have hcert := this.resolve_left (by decide)
      have hs := valueAtLeast_sound _ _ _ _ hcert
      rw [Grid.set_toBoard] at hs
      exact hs
    apply minimax_idx_of_bounds_X g.toBoard i t hX' hO' hi' hge
    · intro j hji hj
      have := hother j (Nat.ne_of_lt hji) hj
      rw [if_pos hji] at this
      omega
    · intro j hij hj
      have := hother j (Nat.ne_of_gt hij) hj
      rw [if_neg (by omega)] at this
      exact this

/-- One round of self-play on a position where `bestCert` fixes the move. -/
theorem selfPlay_step (n fuel : Nat) (g : Grid) (p : Player) (i : Nat) (t : Int)
    (h : bestCert fuel g p i t = true) :
    selfPlay (n + 1) g.toBoard p = selfPlay n (g.set i p.toCell).toBoard p.other := by
  obtain ⟨hX, hO, hi, m, hm, hidx⟩ := bestCert_sound fuel g p i t h
  have hfull : boardFull g.toBoard = false :=
    (boardFull_eq_false_iff _).mpr ((mem_iff_getCell (by decide)).mpr ⟨i, hi⟩)
  have hlt : i < g.toBoard.length := lt_length_of_getCell hi (by decide)
  rw [selfPlay]
  simp only [hX, hO, hfull, Bool.or_self, Bool.false_eq_true, if_false, hm, hidx]
  rw [Grid.set_toBoard]
  simp [arraySet, hlt]

set_option maxRecDepth 100000 in
/-- C4: engine self-play from the empty board with X to move ends, after nine
moves, on the full board `[X,X,O,O,O,X,X,O,X]`, on which neither player has a
winning line; every bound of at least ten rounds gives this result. -/
theorem selfPlay_ends_in_draw (k : Nat) :
    selfPlay (k + 10) (List.replicate 9 Cell.empty) Player.X =
        some [Cell.X, Cell.X, Cell.O, Cell.O, Cell.O, Cell.X, Cell.X, Cell.O, Cell.X] ∧
      boardFull [Cell.X, Cell.X, Cell.O, Cell.O, Cell.O, Cell.X, Cell.X, Cell.O, Cell.X] = true ∧
      checkWinFor [Cell.X, Cell.X, Cell.O, Cell.O, Cell.O, Cell.X, Cell.X, Cell.O, Cell.X]
        Player.X = false ∧
      checkWinFor [Cell.X, Cell.X, Cell.O, Cell.O, Cell.O, Cell.X, Cell.X, Cell.O, Cell.X]
        Player.O = false := by
  have h0 : bestCert 10 emptyGrid Player.X 0 0 = true := by decide!
  have h1 : bestCert 10 (emptyGrid.set 0 Cell.X) Player.O 4 0 = true := by decide!
  have h2 : bestCert 10 ((emptyGrid.set 0 Cell.X).set 4 Cell.O) Player.X 1 0 = true := by
    decide!
  have h3 : bestCert 10 (((emptyGrid.set 0 Cell.X).set 4 Cell.O).set 1 Cell.X) Player.O 2 0 =
      true := by decide!
  have h4 : bestCert 10 ((((emptyGrid.set 0 Cell.X).set 4 Cell.O).set 1 Cell.X).set 2 Cell.O)
      Player.X 6 0 = true := by decide!
  have h5 : bestCert 10
      (((((emptyGrid.set 0 Cell.X).set 4 Cell.O).set 1 Cell.X).set 2 Cell.O).set 6 Cell.X)
      Player.O 3 0 = true := by decide!
  have h6 : bestCert 10
      ((((((emptyGrid.set 0 Cell.X).set 4 Cell.O).set 1 Cell.X).set 2 Cell.O).set 6 Cell.X).set
        3 Cell.O) Player.X 5 0 = true := by decide!
  have h7 : bestCert 10
      (((((((emptyGrid.set 0 Cell.X).set 4 Cell.O).set 1 Cell.X).set 2 Cell.O).set 6 Cell.X).set
        3 Cell.O).set 5 Cell.X) Player.O 7 0 = true := by decide!
  have h8 : bestCert 10
      ((((((((emptyGrid.set 0 Cell.X).set 4 Cell.O).set 1 Cell.X).set 2 Cell.O).set 6
        Cell.X).set 3 Cell.O).set 5 Cell.X).set 7 Cell.O) Player.X 8 0 = true := by decide!
  refine ⟨?_, by decide, by decide, by decide⟩
  have e0 : List.replicate 9 Cell.empty = emptyGrid.toBoard := rfl
  rw [e0, selfPlay_step _ _ _ _ _ _ h0]
  simp only [Player.toCell, Player.other]
  rw [selfPlay_step _ _ _ _ _ _ h1]
  simp only [Player.toCell, Player.other]
  rw [selfPlay_step _ _ _ _ _ _ h2]
  simp only [Player.toCell, Player.other]
  rw [selfPlay_step _ _ _ _ _ _ h3]
  simp only [Player.toCell, Player.other]
  rw [selfPlay_step _ _ _ _ _ _ h4]
  simp only [Player.toCell, Player.other]
  rw [selfPlay_step _ _ _ _ _ _ h5]
  simp only [Player.toCell, Player.other]
  rw [selfPlay_step _ _ _ _ _ _ h6]
  simp only [Player.toCell, Player.other]
  rw [selfPlay_step _ _ _ _ _ _ h7]
  simp only [Player.toCell, Player.other]
  rw [selfPlay_step _ _ _ _ _ _ h8]
  rfl

/-! ## Play against the AI -/

/-- Marking a cell with one player's mark cannot complete a line of the other
player. -/
theorem checkWinFor_set_other (b : Board) (i : Nat) (p q : Player) (hpq : p ≠ q)
    (h : checkWinFor (b.set i p.toCell) q = true) : checkWinFor b q = true := by
  have hcell : ∀ j, getCell (b.set i p.toCell) j = q.toCell → getCell b j = q.toCell := by
    intro j hj
    by_cases hij : i = j
    · subst hij
      by_cases hlt : i < b.length
      · rw [getCell_set_self _ _ _ hlt] at hj
        exfalso
        cases p <;> cases q <;> simp_all [Player.toCell]
      · have : b.set i p.toCell = b := by
          rw [List.set_eq_of_length_le (Nat.le_of_not_lt hlt)]
        rw [this] at hj
        exact hj
    · rw [getCell_set_other _ _ _ _ hij] at hj
      exact hj
  unfold checkWinFor at h ⊢
  rw [List.any_eq_true] at h ⊢
  obtain ⟨⟨a, c, d⟩, hmem, ht⟩ := h
  refine ⟨(a, c, d), hmem, ?_⟩
  simp only [Bool.and_eq_true, beq_iff_eq] at ht ⊢
  exact ⟨⟨hcell _ ht.1.1, hcell _ ht.1.2⟩, hcell _ ht.2⟩

/-- The three outcomes of `aiMove` when `minimax` names cell `j`. -/
theorem aiMove_fields (s : State) (m : Move) (after : Board) (j : Nat)
    (hm : minimax s.board Player.O = some (m, after)) (hj : m.idx = some j) :
    (aiMove s).board = arraySet s.board j Cell.O ∧ (aiMove s).mode = s.mode ∧
    (aiMove s).boardProps = s.boardProps ∧
    (((checkWinFor (arraySet s.board j Cell.O) Player.X ||
          checkWinFor (arraySet s.board j Cell.O) Player.O) = true ∨
        boardFull (arraySet s.board j Cell.O) = true) → (aiMove s).gameActive = false) ∧
    ((checkWinFor (arraySet s.board j Cell.O) Player.X ||
          checkWinFor (arraySet s.board j Cell.O) Player.O) = false →
        boardFull (arraySet s.board j Cell.O) = false →
      (aiMove s).gameActive = s.gameActive ∧ (aiMove s).currentPlayer = Player.X) := by
  unfold aiMove
  simp only [hm, hj]
  generalize hs1 : ({ s with board := arraySet s.board j Player.O.toCell } : State) = s1
  have hb1 : s1.board = arraySet s.board j Cell.O := by rw [← hs1]; rfl
  have hm1 : s1.mode = s.mode := by rw [← hs1]
  have hp1 : s1.boardProps = s.boardProps := by rw [← hs1]
  have hg1 : s1.gameActive = s.gameActive := by rw [← hs1]
  have hw := checkWinner_fst (renderBoard s1)
  have hs := checkWinner_snd (renderBoard s1)
  rcases hcw : checkWinner (renderBoard s1) with ⟨w, s3⟩
  rw [hcw] at hw hs
  simp only at hw hs
  have hwin : (checkWinFor (arraySet s.board j Cell.O) Player.X ||
      checkWinFor (arraySet s.board j Cell.O) Player.O) = w := by
    rw [hw, ← hb1]; rfl
  have hb3 : s3.board = arraySet s.board j Cell.O := by rw [hs, ← hb1]; rfl
  have hm3 : s3.mode = s.mode := by rw [hs, ← hm1]; rfl
  have hp3 : s3.boardProps = s.boardProps := by rw [hs, ← hp1]; rfl
  have hg3 : s3.gameActive = s.gameActive := by rw [hs, ← hg1]; rfl
  rw [hwin]
  cases w with
  | true =>
    exact ⟨hb3, hm3, hp3, fun _ => rfl, fun h => Bool.noConfusion h⟩
  | false =>
    simp only
    by_cases hfull : boardFull (arraySet s.board j Cell.O) = true
    · rw [if_pos (by rw [hb3]; exact hfull)]
      exact ⟨hb3, hm3, hp3, fun _ => rfl, fun _ h => by rw [hfull] at h; cases h⟩
    · rw [if_neg (by rw [hb3]; exact hfull)]
      refine ⟨hb3, hm3, hp3, fun h => ?_, fun _ _ => ⟨hg3, rfl⟩⟩
      rcases h with h | h
      · cases h
      · exact absurd h hfull

theorem humanRound_eq (s : State) (i : Nat) :
    humanRound s i =
      if (onCellClick s (i : Int)).2 = true then aiMove (onCellClick s (i : Int)).1
      else (onCellClick s (i : Int)).1 := by
  unfold humanRound
  rcases onCellClick s (i : Int) with ⟨s1, sched⟩
  cases sched <;> rfl

theorem not_winX_of_nonneg (b : Board) (p : Player) (h : 0 ≤ V b p) :
    checkWinFor b Player.X = false := by
  by_contra hc
  rw [V_of_winX b p (by simpa using hc)] at h
  omega

/-- One round of play against the AI preserves `AiInv`; the human's mark alone
completes no line of X, and a round that leaves the game active fills two
cells. -/
theorem humanRound_inv (s : State) (i : Nat) (hinv : AiInv s) (hact : s.gameActive = true)
    (hi : getCell s.board i = Cell.empty) :
    AiInv (humanRound s i) ∧ checkWinFor (onCellClick s (i : Int)).1.board Player.X = false ∧
      ((humanRound s i).gameActive = true →
        countEmpty (humanRound s i).board + 2 = countEmpty s.board) := by
  obtain ⟨hmode, hX, hA, _⟩ := hinv
  obtain ⟨hcp, hO, he, hV⟩ := hA hact
  have hlt : i < s.board.length := lt_length_of_getCell hi (by decide)
  have hfree : (s.boardGet (i : Int)).truthy = false := by
    rw [boardGet_natCast, hi]; rfl
  obtain ⟨hb, _, hm, hstop, hgo⟩ := onCellClick_accepted_fields s i hact hfree
  have hput : (s.boardPut (i : Int) s.currentPlayer.toCell).board = s.board.set i Cell.X := by
    rw [boardPut_natCast, hcp]
    simp [arraySet, hlt, Player.toCell]
  rw [hput] at hb hstop hgo
  have hV1 : 0 ≤ V (s.board.set i Cell.X) Player.O :=
    le_trans hV ((V_bounds_children s.board Player.X hX hO i hi).2 rfl)
  have hX1 : checkWinFor (s.board.set i Cell.X) Player.X = false := not_winX_of_nonneg _ _ hV1
  have hO1 : checkWinFor (s.board.set i Cell.X) Player.O = false := by
    by_contra hc
    have := checkWinFor_set_other s.board i Player.X Player.O (by decide) (by simpa using hc)
    rw [hO] at this
    cases this
  have hc1 := count_set_of_empty s.board i Cell.X hi (by decide)
  rw [humanRound_eq]
  refine ⟨?_, by rw [hb]; exact hX1, ?_⟩
  · cases hfull : boardFull (s.board.set i Cell.X) with
    | true =>
      obtain ⟨hga, _, hsched⟩ := hstop (Or.inr hfull)
      rw [hsched]
      simp only [Bool.false_eq_true, if_false]
      refine ⟨by rw [hm]; exact hmode, by rw [hb]; exact hX1, fun h => ?_, fun _ => ?_⟩
      · rw [hga] at h; cases h
      · right; rw [hb]; exact hfull
    | false =>
      obtain ⟨hga, hcp1, hsched⟩ := hgo (by rw [hX1, hO1]; rfl) hfull
      have hs : (onCellClick s (i : Int)).2 = true := by
        rw [hsched, hmode, hcp]; rfl
      rw [hs]
      simp only [if_true]
      have he1 : Cell.empty ∈ s.board.set i Cell.X := (boardFull_eq_false_iff _).mp hfull
      obtain ⟨m, j, hmm, hidx, hj, _, hval, _⟩ :=
        minimax_first_extremal (s.board.set i Cell.X) Player.O hX1 hO1 he1
      rw [← hb] at hmm
      obtain ⟨hb2, hm2, _, hstop2, hgo2⟩ := aiMove_fields _ m _ j hmm hidx
      rw [hb] at hb2 hstop2 hgo2
      have hjlt : j < (s.board.set i Cell.X).length := lt_length_of_getCell hj (by decide)
      have hset : arraySet (s.board.set i Cell.X) j Cell.O = (s.board.set i Cell.X).set j Cell.O := by
        simp only [arraySet, hjlt, if_true]
      rw [hset] at hb2 hstop2 hgo2
      have hV2 : 0 ≤ V ((s.board.set i Cell.X).set j Cell.O) Player.X := by
        have : childValue (s.board.set i Cell.X) Player.O j =
            V ((s.board.set i Cell.X).set j Cell.O) Player.X := rfl
        rw [← this, hval]
        exact hV1
      have hX2 := not_winX_of_nonneg _ _ hV2
      refine ⟨by rw [hm2, hm]; exact hmode, by rw [hb2]; exact hX2, fun h => ?_, fun h => ?_⟩
      · cases hO2 : checkWinFor ((s.board.set i Cell.X).set j Cell.O) Player.O with
        | true =>
          rw [hstop2 (Or.inl (by rw [hX2, hO2]; rfl))] at h
          cases h
        | false =>
          cases hfull2 : boardFull ((s.board.set i Cell.X).set j Cell.O) with
          | true =>
            rw [hstop2 (Or.inr hfull2)] at h
            cases h
          | false =>
            obtain ⟨_, hcp2⟩ := hgo2 (by rw [hX2, hO2]; rfl) hfull2
            refine ⟨hcp2, by rw [hb2]; exact hO2, ?_, by rw [hb2]; exact hV2⟩
            rw [hb2]
            exact (boardFull_eq_false_iff _).mp hfull2
      · rw [hb2]
        cases hO2 : checkWinFor ((s.board.set i Cell.X).set j Cell.O) Player.O with
        | true => exact Or.inl rfl
        | false =>
          right
          cases hfull2 : boardFull ((s.board.set i Cell.X).set j Cell.O) with
          | true => rfl
          | false =>
            obtain ⟨hga2, _⟩ := hgo2 (by rw [hX2, hO2]; rfl) hfull2
            rw [hga2, hga] at h
            cases h
  · intro hactive
    cases hfull : boardFull (s.board.set i Cell.X) with
    | true =>
      obtain ⟨hga, _, hsched⟩ := hstop (Or.inr hfull)
      rw [hsched] at hactive
      simp only [Bool.false_eq_true, if_false] at hactive
      rw [hga] at hactive
      cases hactive
    | false =>
      obtain ⟨hga, hcp1, hsched⟩ := hgo (by rw [hX1, hO1]; rfl) hfull
      have hs : (onCellClick s (i : Int)).2 = true := by
        rw [hsched, hmode, hcp]; rfl
      rw [hs]
      simp only [if_true]
      have he1 : Cell.empty ∈ s.board.set i Cell.X := (boardFull_eq_false_iff _).mp hfull
      obtain ⟨m, j, hmm, hidx, hj, _, _, _⟩ :=
        minimax_first_extremal (s.board.set i Cell.X) Player.O hX1 hO1 he1
      rw [← hb] at hmm
      obtain ⟨hb2, _, _, _, _⟩ := aiMove_fields _ m _ j hmm hidx
      rw [hb] at hb2
      have hjlt : j < (s.board.set i Cell.X).length := lt_length_of_getCell hj (by decide)
      have hset : arraySet (s.board.set i Cell.X) j Cell.O = (s.board.set i Cell.X).set j Cell.O := by
        simp only [arraySet, hjlt, if_true]
      rw [hb2, hset]
      have hc2 := count_set_of_empty (s.board.set i Cell.X) j Cell.O hj (by decide)
      omega

theorem legalClicks_cons (s : State) (i : Nat) (rest : List Nat)
    (h : legalClicks s (i :: rest) = true) :
    s.gameActive = true ∧ s.currentPlayer = Player.X ∧ getCell s.board i = Cell.empty ∧
      legalClicks (humanRound s i) rest = true := by
  simpa [legalClicks, and_assoc] using h

/-- A legal sequence of clicks preserves `AiInv`, and while the game stays
active every round has filled two cells. -/
theorem play_inv (clicks : List Nat) (s : State) (hinv : AiInv s)
    (hlegal : legalClicks s clicks = true) :
    AiInv (play s clicks) ∧
      ((play s clicks).gameActive = true →
        countEmpty (play s clicks).board + 2 * clicks.length = countEmpty s.board) := by
  induction clicks generalizing s with
  | nil => exact ⟨hinv, fun _ => by simp [play]⟩
  | cons i rest ih =>
    obtain ⟨hact, _, hi, hrest⟩ := legalClicks_cons s i rest hlegal
    obtain ⟨hinv1, _, hcount1⟩ := humanRound_inv s i hinv hact hi
    obtain ⟨hinv2, hcount2⟩ := ih (humanRound s i) hinv1 hrest
    have hplay : play s (i :: rest) = play (humanRound s i) rest := rfl
    rw [hplay]
    refine ⟨hinv2, fun h => ?_⟩
    have hmid : (humanRound s i).gameActive = true := by
      cases rest with
      | nil => exact h
      | cons j more => exact (legalClicks_cons _ j more hrest).1
    have h1 := hcount1 hmid
    have h2 := hcount2 h
    simp only [List.length_cons]
    omega

set_option maxRecDepth 100000 in
/-- From the empty board with X to move, O can avoid defeat. -/
theorem V_emptyBoard_nonneg : 0 ≤ V (List.replicate 9 Cell.empty) Player.X := by
  have h : valueAtLeast 10 emptyGrid Player.X 0 = true := by decide!
  exact valueAtLeast_sound 10 emptyGrid Player.X 0 h

theorem initGame_inv (s0 : State) : AiInv (initGame s0 Mode.ai) := by
  have hboard : (initGame s0 Mode.ai).board = List.replicate 9 Cell.empty := rfl
  have hX : checkWinFor (List.replicate 9 Cell.empty) Player.X = false := by decide
  have hO : checkWinFor (List.replicate 9 Cell.empty) Player.O = false := by decide
  have he : Cell.empty ∈ List.replicate 9 Cell.empty := by decide
  refine ⟨rfl, hboard ▸ hX, fun _ => ⟨rfl, hboard ▸ hO, hboard ▸ he, ?_⟩, fun h => ?_⟩
  · rw [hboard]
    exact V_emptyBoard_nonneg
  · cases h

/-- C3: the AI never loses.  Start from `initGame('ai')` and let the human make
any sequence of legal X moves, each answered by `aiMove` when the game is not
over.  Then X has no winning line in the state reached, nor in the state right
after a further legal click; if the game is over, O has a winning line or the
board is full; and if it is not over, it is X's turn, a cell is still empty and
at most four clicks were made, so every game ends within five. -/
theorem ai_never_loses (s0 : State) (clicks : List Nat)
    (hlegal : legalClicks (initGame s0 Mode.ai) clicks = true) :
    checkWinFor (play (initGame s0 Mode.ai) clicks).board Player.X = false ∧
    (∀ i, (play (initGame s0 Mode.ai) clicks).gameActive = true →
      getCell (play (initGame s0 Mode.ai) clicks).board i = Cell.empty →
      checkWinFor (onCellClick (play (initGame s0 Mode.ai) clicks) (i : Int)).1.board
        Player.X = false) ∧
    ((play (initGame s0 Mode.ai) clicks).gameActive = false →
      checkWinFor (play (initGame s0 Mode.ai) clicks).board Player.O = true ∨
        boardFull (play (initGame s0 Mode.ai) clicks).board = true) ∧
    ((play (initGame s0 Mode.ai) clicks).gameActive = true →
      (play (initGame s0 Mode.ai) clicks).currentPlayer = Player.X ∧
        Cell.empty ∈ (play (initGame s0 Mode.ai) clicks).board ∧ clicks.length ≤ 4) := by
  obtain ⟨hinv, hcount⟩ := play_inv clicks (initGame s0 Mode.ai) (initGame_inv s0) hlegal
  refine ⟨hinv.2.1, fun i hact hi => (humanRound_inv _ i hinv hact hi).2.1, hinv.2.2.2,
    fun hact => ?_⟩
  obtain ⟨hcp, _, he, _⟩ := hinv.2.2.1 hact
  refine ⟨hcp, he, ?_⟩
  have h1 := hcount hact
  have h9 : countEmpty (initGame s0 Mode.ai).board = 9 := by
    have hboard : (initGame s0 Mode.ai).board = List.replicate 9 Cell.empty := rfl
    rw [hboard]
    decide
  have hpos : 0 < countEmpty (play (initGame s0 Mode.ai) clicks).board :=
    List.count_pos_iff.mpr he
  omega

theorem ai_never_loses_witness :
    legalClicks (initGame State.initial Mode.ai) [4] = true ∧
    checkWinFor (play (initGame State.initial Mode.ai) [4]).board Player.X = false ∧
    (∀ i, (play (initGame State.initial Mode.ai) [4]).gameActive = true →
      getCell (play (initGame State.initial Mode.ai) [4]).board i = Cell.empty →
      checkWinFor (onCellClick (play (initGame State.initial Mode.ai) [4]) (i : Int)).1.board
        Player.X = false) ∧
    ((play (initGame State.initial Mode.ai) [4]).gameActive = false →
      checkWinFor (play (initGame State.initial Mode.ai) [4]).board Player.O = true ∨
        boardFull (play (initGame State.initial Mode.ai) [4]).board = true) ∧
    ((play (initGame State.initial Mode.ai) [4]).gameActive = true →
      (play (initGame State.initial Mode.ai) [4]).currentPlayer = Player.X ∧
        Cell.empty ∈ (play (initGame State.initial Mode.ai) [4]).board ∧
        [4].length ≤ 4) :=
  ⟨by decide, ai_never_loses State.initial [4] (by decide)⟩

/-! ## Terminal detection after a click -/

theorem checkWinner_line_of_true (s : State) (h : (checkWinner s).1 = true) :
    (checkWinner s).2.winnerLine ≠ [] := by
  unfold checkWinner at h ⊢
  cases hf : WIN_COMBOS.find? (lineComplete s.board) with
  | none => rw [hf] at h; cases h
  | some t => simp

theorem checkWinner_line_of_false (s : State) (h : (checkWinner s).1 = false) :
    (checkWinner s).2.winnerLine = [] := by
  unfold checkWinner at h ⊢
  cases hf : WIN_COMBOS.find? (lineComplete s.board) with
  | none => rfl
  | some t => rw [hf] at h; cases h

/-- The status text and winner line an accepted click leaves, by outcome. -/
theorem onCellClick_accepted_outcome (s : State) (idx : Int) (hact : s.gameActive = true)
    (hfree : (s.boardGet idx).truthy = false) :
    ((checkWinFor (s.boardPut idx s.currentPlayer.toCell).board Player.X ||
        checkWinFor (s.boardPut idx s.currentPlayer.toCell).board Player.O) = true →
      (onCellClick s idx).1.status = "Winner: " ++ s.currentPlayer.toStr ∧
        (onCellClick s idx).1.winnerLine ≠ []) ∧
    ((checkWinFor (s.boardPut idx s.currentPlayer.toCell).board Player.X ||
        checkWinFor (s.boardPut idx s.currentPlayer.toCell).board Player.O) = false →
      (onCellClick s idx).1.winnerLine = [] ∧
      (boardFull (s.boardPut idx s.currentPlayer.toCell).board = true →
        (onCellClick s idx).1.status = "Draw!") ∧
      (boardFull (s.boardPut idx s.currentPlayer.toCell).board = false →
        (onCellClick s idx).1.status = "Current turn: " ++ s.currentPlayer.other.toStr)) := by
  obtain ⟨hcp, _, _⟩ := boardPut_fields s idx s.currentPlayer.toCell
  have hother : (if s.currentPlayer = Player.X then Player.O else Player.X) =
      s.currentPlayer.other := by
    cases s.currentPlayer <;> rfl
  unfold onCellClick
  simp only [hact, hfree, Bool.not_true, Bool.false_or, Bool.false_eq_true, if_false]
  generalize s.boardPut idx s.currentPlayer.toCell = s1 at hcp ⊢
  have hw := checkWinner_fst (renderBoard s1)
  have hs := checkWinner_snd (renderBoard s1)
  have hl1 := checkWinner_line_of_true (renderBoard s1)
  have hl0 := checkWinner_line_of_false (renderBoard s1)
  rcases hcw : checkWinner (renderBoard s1) with ⟨w, s3⟩
  rw [hcw] at hw hs hl1 hl0
  simp only at hw hs hl1 hl0
  have hwin : (checkWinFor s1.board Player.X || checkWinFor s1.board Player.O) = w := by
    rw [hw]; rfl
  have hb3 : s3.board = s1.board := by rw [hs]; rfl
  have hc3 : s3.currentPlayer = s.currentPlayer := by rw [hs, ← hcp]; rfl
  rw [hwin]
  cases w with
  | true =>
    refine ⟨fun _ => ⟨?_, hl1 rfl⟩, fun h => Bool.noConfusion h⟩
    show "Winner: " ++ s3.currentPlayer.toStr = _
    rw [hc3]
  | false =>
    refine ⟨fun h => Bool.noConfusion h, fun _ => ?_⟩
    simp only
    by_cases hfull : boardFull s1.board = true
    · rw [if_pos (by rw [hb3]; exact hfull)]
      exact ⟨hl0 rfl, fun _ => rfl, fun h => by rw [hfull] at h; cases h⟩
    · rw [if_neg (by rw [hb3]; exact hfull)]
      refine ⟨hl0 rfl, fun h => absurd h hfull, fun _ => ?_⟩
      show "Current turn: " ++ (if s3.currentPlayer = Player.X then Player.O else Player.X).toStr = _
      rw [hc3, hother]

theorem status_turn_ne_draw (p : Player) : "Current turn: " ++ p.toStr ≠ "Draw!" := by
  cases p <;> decide

/-- C11: terminal detection after an accepted click.  The game becomes inactive
exactly when the resulting board has a winning line or no empty cell.  It is
declared a draw (status `Draw!`, empty winner line) exactly when the resulting
board has no empty cell and no winning line, so a move that fills the last cell
and completes a line is a win.  On a win `currentPlayer` is not toggled and the
status names it; when the board had no line before, the line is the mover's. -/
theorem onCellClick_terminal_detection (s : State) (idx : Nat) (hidx : idx < 9)
    (hact : s.gameActive = true) (hempty : getCell s.board idx = Cell.empty) :
    ((onCellClick s (idx : Int)).1.gameActive = false ↔
      (checkWinFor (onCellClick s (idx : Int)).1.board Player.X = true ∨
        checkWinFor (onCellClick s (idx : Int)).1.board Player.O = true ∨
        Cell.empty ∉ (onCellClick s (idx : Int)).1.board)) ∧
    (((onCellClick s (idx : Int)).1.status = "Draw!" ∧
        (onCellClick s (idx : Int)).1.winnerLine = []) ↔
      (Cell.empty ∉ (onCellClick s (idx : Int)).1.board ∧
        checkWinFor (onCellClick s (idx : Int)).1.board Player.X = false ∧
        checkWinFor (onCellClick s (idx : Int)).1.board Player.O = false)) ∧
    ((checkWinFor (onCellClick s (idx : Int)).1.board Player.X = true ∨
        checkWinFor (onCellClick s (idx : Int)).1.board Player.O = true) →
      (onCellClick s (idx : Int)).1.gameActive = false ∧
        (onCellClick s (idx : Int)).1.currentPlayer = s.currentPlayer ∧
        (onCellClick s (idx : Int)).1.status = "Winner: " ++ s.currentPlayer.toStr ∧
        (onCellClick s (idx : Int)).1.winnerLine ≠ [] ∧
        (checkWinFor s.board Player.X = false → checkWinFor s.board Player.O = false →
          checkWinFor (onCellClick s (idx : Int)).1.board s.currentPlayer = true)) := by
  have _ := hidx
  have hlt : idx < s.board.length := lt_length_of_getCell hempty (by decide)
  have hfree : (s.boardGet (idx : Int)).truthy = false := by
    rw [boardGet_natCast, hempty]; rfl
  obtain ⟨hb, _, _, hstop, hgo⟩ := onCellClick_accepted_fields s idx hact hfree
  obtain ⟨hwinO, hrest⟩ := onCellClick_accepted_outcome s idx hact hfree
  rw [← hb] at hstop hgo hwinO hrest
  have hput : (onCellClick s (idx : Int)).1.board = s.board.set idx s.currentPlayer.toCell := by
    rw [hb, boardPut_natCast]
    simp [arraySet, hlt]
  generalize (onCellClick s (idx : Int)).1 = r at *
  have hfull_iff : boardFull r.board = true ↔ Cell.empty ∉ r.board := by
    rw [← boardFull_eq_false_iff]
    cases boardFull r.board <;> simp
  have hw_iff : (checkWinFor r.board Player.X || checkWinFor r.board Player.O) = true ↔
      (checkWinFor r.board Player.X = true ∨ checkWinFor r.board Player.O = true) := by
    rw [Bool.or_eq_true]
  have hmover : checkWinFor s.board Player.X = false → checkWinFor s.board Player.O = false →
      (checkWinFor r.board Player.X = true ∨ checkWinFor r.board Player.O = true) →
      checkWinFor r.board s.currentPlayer = true := by
    intro hX0 hO0 hwin
    rw [hput] at hwin ⊢
    cases hp : s.currentPlayer with
    | X =>
      rw [hp] at hwin
      rcases hwin with h | h
      · exact h
      · have := checkWinFor_set_other s.board idx Player.X Player.O (by decide) h
        rw [hO0] at this; cases this
    | O =>
      rw [hp] at hwin
      rcases hwin with h | h
      · have := checkWinFor_set_other s.board idx Player.O Player.X (by decide) h
        rw [hX0] at this; cases this
      · exact h
  by_cases hw : (checkWinFor r.board Player.X || checkWinFor r.board Player.O) = true
  · -- a line is complete
    obtain ⟨hga, hcp, _⟩ := hstop (Or.inl hw)
    obtain ⟨hst, hline⟩ := hwinO hw
    have hwin := hw_iff.mp hw
    refine ⟨⟨fun _ => ?_, fun _ => hga⟩, ⟨fun h => absurd h.2 hline, fun h => ?_⟩,
      fun _ => ⟨hga, hcp, hst, hline, fun hX0 hO0 => hmover hX0 hO0 hwin⟩⟩
    · rcases hwin with h | h
      · exact Or.inl h
      · exact Or.inr (Or.inl h)
    · exfalso
      rcases hwin with h' | h'
      · rw [h.2.1] at h'; cases h'
      · rw [h.2.2] at h'; cases h'
  · -- no line
    have hw0 : (checkWinFor r.board Player.X || checkWinFor r.board Player.O) = false := by
      simpa using hw
    have hnone : ¬ (checkWinFor r.board Player.X = true ∨ checkWinFor r.board Player.O = true) :=
      fun h => hw (hw_iff.mpr h)
    have hX0 : checkWinFor r.board Player.X = false := by
      cases h : checkWinFor r.board Player.X with
      | false => rfl
      | true => exact absurd (Or.inl h) hnone
    have hO0 : checkWinFor r.board Player.O = false := by
      cases h : checkWinFor r.board Player.O with
      | false => rfl
      | true => exact absurd (Or.inr h) hnone
    obtain ⟨hline, hdraw, hturn⟩ := hrest hw0
    cases hf : boardFull r.board with
    | true =>
      have hne := hfull_iff.mp hf
      obtain ⟨hga, _, _⟩ := hstop (Or.inr hf)
      exact ⟨⟨fun _ => Or.inr (Or.inr hne), fun _ => hga⟩,
        ⟨fun _ => ⟨hne, hX0, hO0⟩, fun _ => ⟨hdraw hf, hline⟩⟩, fun h => absurd h hnone⟩
    | false =>
      have hne : ¬ Cell.empty ∉ r.board := fun h => by
        rw [← hfull_iff, hf] at h; cases h
      obtain ⟨hga, _, _⟩ := hgo hw0 hf
      have hact' : ¬ r.gameActive = false := by rw [hga]; decide
      refine ⟨⟨fun h => absurd h hact', fun h => ?_⟩,
        ⟨fun h => ?_, fun h => absurd h.1 hne⟩, fun h => absurd h hnone⟩
      · rcases h with h | h | h
        · exact absurd (Or.inl h) hnone
        · exact absurd (Or.inr h) hnone
        · exact absurd h hne
      · exact absurd h.1 (by rw [hturn hf]; exact status_turn_ne_draw _)

theorem onCellClick_terminal_detection_witness :
    (4 < 9 ∧ (initGame State.initial Mode.pvp).gameActive = true ∧
      getCell (initGame State.initial Mode.pvp).board 4 = Cell.empty) ∧
    ((onCellClick (initGame State.initial Mode.pvp) ((4 : Nat) : Int)).1.gameActive = false ↔
      (checkWinFor (onCellClick (initGame State.initial Mode.pvp) ((4 : Nat) : Int)).1.board
          Player.X = true ∨
        checkWinFor (onCellClick (initGame State.initial Mode.pvp) ((4 : Nat) : Int)).1.board
          Player.O = true ∨
        Cell.empty ∉ (onCellClick (initGame State.initial Mode.pvp) ((4 : Nat) : Int)).1.board)) ∧
    (((onCellClick (initGame State.initial Mode.pvp) ((4 : Nat) : Int)).1.status = "Draw!" ∧
        (onCellClick (initGame State.initial Mode.pvp) ((4 : Nat) : Int)).1.winnerLine = []) ↔
      (Cell.empty ∉ (onCellClick (initGame State.initial Mode.pvp) ((4 : Nat) : Int)).1.board ∧
        checkWinFor (onCellClick (initGame State.initial Mode.pvp) ((4 : Nat) : Int)).1.board
          Player.X = false ∧
        checkWinFor (onCellClick (initGame State.initial Mode.pvp) ((4 : Nat) : Int)).1.board
          Player.O = false)) ∧
    ((checkWinFor (onCellClick (initGame State.initial Mode.pvp) ((4 : Nat) : Int)).1.board
          Player.X = true ∨
        checkWinFor (onCellClick (initGame State.initial Mode.pvp) ((4 : Nat) : Int)).1.board
          Player.O = true) →
      (onCellClick (initGame State.initial Mode.pvp) ((4 : Nat) : Int)).1.gameActive = false ∧
        (onCellClick (initGame State.initial Mode.pvp) ((4 : Nat) : Int)).1.currentPlayer =
          (initGame State.initial Mode.pvp).currentPlayer ∧
        (onCellClick (initGame State.initial Mode.pvp) ((4 : Nat) : Int)).1.status =
          "Winner: " ++ (initGame State.initial Mode.pvp).currentPlayer.toStr ∧
        (onCellClick (initGame State.initial Mode.pvp) ((4 : Nat) : Int)).1.winnerLine ≠ [] ∧
        (checkWinFor (initGame State.initial Mode.pvp).board Player.X = false →
          checkWinFor (initGame State.initial Mode.pvp).board Player.O = false →
          checkWinFor (onCellClick (initGame State.initial Mode.pvp) ((4 : Nat) : Int)).1.board
            (initGame State.initial Mode.pvp).currentPlayer = true)) :=
  ⟨⟨by decide, by decide, by decide⟩,
    onCellClick_terminal_detection (initGame State.initial Mode.pvp) 4 (by decide) (by decide)
      (by decide)⟩

/-! ## Scenario, reset, tie-breaking and the two win detectors -/

/-- C12, as stated, fails: on `[X,O,X,O,X,O,X,_,_]` X holds the diagonal
`[2,4,6]`, so `checkWinFor(board, X)` is true, and two cells are empty. -/
theorem scenarioBoard_has_X_line :
    checkWinFor scenarioBoard Player.X = true ∧ countEmpty scenarioBoard = 2 := by
  decide

/-- C12, amended: on `[X,O,X,O,X,O,X,_,_]` X has a winning line and O has none,
`checkWinner` finds the line `[2,4,6]`, exactly the cells 7 and 8 are empty, and
the board is not a draw: it is not full. -/
theorem scenarioBoard_facts (s : State) :
    checkWinFor scenarioBoard Player.X = true ∧ checkWinFor scenarioBoard Player.O = false ∧
      (checkWinner { s with board := scenarioBoard }).1 = true ∧
      (checkWinner { s with board := scenarioBoard }).2.winnerLine = [2, 4, 6] ∧
      availSpots scenarioBoard = [7, 8] ∧ countEmpty scenarioBoard = 2 ∧
      boardFull scenarioBoard = false := by
  refine ⟨by decide, by decide, ?_, ?_, by decide, by decide, by decide⟩
  · rfl
  · rfl

/-- C13: `initGame(m)` yields the same fresh state whatever the prior state:
nine empty cells, X to move, game active, no winner line, mode `m`; so applying
it twice in a row gives the state one application gives. -/
theorem initGame_fresh_and_idempotent (s s' : State) (m : Mode) :
    initGame s m = initGame s' m ∧
      (initGame s m).board = List.replicate 9 Cell.empty ∧
      (initGame s m).boardProps = [] ∧
      (initGame s m).currentPlayer = Player.X ∧ (initGame s m).gameActive = true ∧
      (initGame s m).winnerLine = [] ∧ (initGame s m).mode = some m ∧
      (initGame s m).status = "Current turn: X" ∧
      initGame (initGame s m) m = initGame s m :=
  ⟨rfl, rfl, rfl, rfl, rfl, rfl, rfl, rfl, rfl⟩

/-- C17: the engine does not prefer faster wins.  On `[X,X,_,O,O,_,_,_,_]` with
O to move, neither player has a line, marking the empty cell 5 completes the
line `[3,4,5]` at once, yet `minimax` returns the earlier empty cell 2, which
completes no line, with score `+10`. -/
theorem minimax_ignores_faster_win :
    ∃ (b : Board) (i j : Nat),
      IsBoard b ∧ checkWinFor b Player.X = false ∧ checkWinFor b Player.O = false ∧
        getCell b i = Cell.empty ∧ getCell b j = Cell.empty ∧ i < j ∧
        checkWinFor (b.set j Cell.O) Player.O = true ∧
        checkWinFor (b.set i Cell.O) Player.O = false ∧
        minimax b Player.O = some ({ idx := some i, score := 10 }, b) :=
  ⟨blockBoard, 2, 5, by decide, by decide, by decide, by decide, by decide, by decide,
    by decide, by decide, by decide!⟩

theorem lineComplete_iff (b : Board) (t : Nat × Nat × Nat) :
    lineComplete b t = true ↔
      ∃ p : Player, getCell b t.1 = p.toCell ∧ getCell b t.2.1 = p.toCell ∧
        getCell b t.2.2 = p.toCell := by
  rw [lineComplete_eq]
  simp only [Bool.or_eq_true, Bool.and_eq_true, beq_iff_eq]
  constructor
  · rintro (⟨⟨h1, h2⟩, h3⟩ | ⟨⟨h1, h2⟩, h3⟩)
    · exact ⟨Player.X, h1, h2, h3⟩
    · exact ⟨Player.O, h1, h2, h3⟩
  · rintro ⟨p, h1, h2, h3⟩
    cases p
    · exact Or.inl ⟨⟨h1, h2⟩, h3⟩
    · exact Or.inr ⟨⟨h1, h2⟩, h3⟩

/-- C18: the two win detectors agree.  `checkWinner()` returns true exactly
when `checkWinFor` is true for X or for O; when it returns true, `winnerLine` is
the first triple of `WIN_COMBOS` whose three cells hold the same mark; when it
returns false, `winnerLine` is empty; nothing else in the state changes. -/
theorem checkWinner_agrees_with_checkWinFor (s : State) :
    ((checkWinner s).1 = true ↔
      (checkWinFor s.board Player.X = true ∨ checkWinFor s.board Player.O = true)) ∧
    ((checkWinner s).1 = true →
      ∃ pre t post, WIN_COMBOS = pre ++ t :: post ∧
        (∃ p : Player, getCell s.board t.1 = p.toCell ∧ getCell s.board t.2.1 = p.toCell ∧
          getCell s.board t.2.2 = p.toCell) ∧
        (∀ u ∈ pre, ¬ ∃ p : Player, getCell s.board u.1 = p.toCell ∧
          getCell s.board u.2.1 = p.toCell ∧ getCell s.board u.2.2 = p.toCell) ∧
        (checkWinner s).2.winnerLine = [t.1, t.2.1, t.2.2]) ∧
    ((checkWinner s).1 = false → (checkWinner s).2.winnerLine = []) ∧
    (checkWinner s).2 = { s with winnerLine := (checkWinner s).2.winnerLine } := by
  refine ⟨?_, ?_, ?_, checkWinner_snd s⟩
  · rw [checkWinner_fst]
    simp
  · unfold checkWinner
    cases h : WIN_COMBOS.find? (lineComplete s.board) with
    | none => intro hc; cases hc
    | some t =>
      intro _
      obtain ⟨ht, pre, post, hsplit, hpre⟩ := List.find?_eq_some.mp h
      refine ⟨pre, t, post, hsplit, (lineComplete_iff _ _).mp ht, ?_, rfl⟩
      intro u hu hex
      have := hpre u hu
      rw [(lineComplete_iff _ _).mpr hex] at this
      cases this
  · unfold checkWinner
    cases h : WIN_COMBOS.find? (lineComplete s.board) with
    | none => intro _; rfl
    | some t => intro hc; cases hc

/-! ## At most one winner -/

/-- The outcomes of `aiMove` when `minimax` names no cell: nothing is written. -/
theorem aiMove_fields_none (s : State) (m : Move) (after : Board)
    (hm : minimax s.board Player.O = some (m, after)) (hj : m.idx = none) :
    (aiMove s).board = s.board ∧ (aiMove s).mode = s.mode ∧
    (aiMove s).boardProps = s.boardProps ∧
    (((checkWinFor s.board Player.X || checkWinFor s.board Player.O) = true ∨
        boardFull s.board = true) → (aiMove s).gameActive = false) ∧
    ((checkWinFor s.board Player.X || checkWinFor s.board Player.O) = false →
        boardFull s.board = false →
      (aiMove s).gameActive = s.gameActive ∧ (aiMove s).currentPlayer = Player.X) := by
  unfold aiMove
  simp only [hm, hj]
  have hw := checkWinner_fst (renderBoard s)
  have hs := checkWinner_snd (renderBoard s)
  rcases hcw : checkWinner (renderBoard s) with ⟨w, s3⟩
  rw [hcw] at hw hs
  simp only at hw hs
  have hwin : (checkWinFor s.board Player.X || checkWinFor s.board Player.O) = w := by
    rw [hw]; rfl
  have hb3 : s3.board = s.board := by rw [hs]; rfl
  have hm3 : s3.mode = s.mode := by rw [hs]; rfl
  have hp3 : s3.boardProps = s.boardProps := by rw [hs]; rfl
  have hg3 : s3.gameActive = s.gameActive := by rw [hs]; rfl
  rw [hwin]
  cases w with
  | true =>
    exact ⟨hb3, hm3, hp3, fun _ => rfl, fun h => Bool.noConfusion h⟩
  | false =>
    simp only
    by_cases hfull : boardFull s.board = true
    · rw [if_pos (by rw [hb3]; exact hfull)]
      exact ⟨hb3, hm3, hp3, fun _ => rfl, fun _ h => by rw [hfull] at h; cases h⟩
    · rw [if_neg (by rw [hb3]; exact hfull)]
      refine ⟨hb3, hm3, hp3, fun h => ?_, fun _ _ => ⟨hg3, rfl⟩⟩
      rcases h with h | h
      · cases h
      · exact absurd h hfull

theorem getCell_arraySet (b : Board) (k j : Nat) (v : Cell) :
    getCell (arraySet b k v) j = if j = k then v else getCell b j := by
  by_cases hjk : j = k
  · subst hjk
    simp [getCell_arraySet_self]
  · rw [if_neg hjk]
    by_cases hk : k < b.length
    · simp only [arraySet, hk, if_true]
      exact getCell_set_other _ _ _ _ (Ne.symm hjk)
    · by_cases hj : j < b.length
      · exact getCell_arraySet_past b k j v (Nat.le_of_not_lt hk) hj
      · have hpast : getCell b j = Cell.undef := by
          simp [getCell, List.getD_eq_getElem?_getD,
            List.getElem?_eq_none (Nat.le_of_not_lt hj)]
        rw [hpast]
        simp only [arraySet, hk, if_false]
        unfold getCell
        rw [List.getD_eq_getElem?_getD]
        by_cases hjk2 : j < k
        · have h1 : (b ++ List.replicate (k - b.length) Cell.undef ++ [v])[j]? =
              some Cell.undef := by
            rw [List.getElem?_append_left (by simp; omega)]
            rw [List.getElem?_append_right (by omega)]
            simp [List.getElem?_replicate]
            omega
          rw [h1]; rfl
        · have h1 : (b ++ List.replicate (k - b.length) Cell.undef ++ [v])[j]? = none := by
            apply List.getElem?_eq_none
            simp
            omega
          rw [h1]; rfl

/-- Storing one player's mark cannot complete a line of the other player,
whatever the index. -/
theorem checkWinFor_arraySet_other (b : Board) (k : Nat) (p q : Player) (hpq : p ≠ q)
    (h : checkWinFor (arraySet b k p.toCell) q = true) : checkWinFor b q = true := by
  have hcell : ∀ j, getCell (arraySet b k p.toCell) j = q.toCell → getCell b j = q.toCell := by
    intro j hj
    rw [getCell_arraySet] at hj
    by_cases hjk : j = k
    · rw [if_pos hjk] at hj
      exfalso
      cases p <;> cases q <;> simp_all [Player.toCell]
    · rw [if_neg hjk] at hj
      exact hj
  unfold checkWinFor at h ⊢
  rw [List.any_eq_true] at h ⊢
  obtain ⟨⟨a, c, d⟩, hmem, ht⟩ := h
  refine ⟨(a, c, d), hmem, ?_⟩
  simp only [Bool.and_eq_true, beq_iff_eq] at ht ⊢
  exact ⟨⟨hcell _ ht.1.1, hcell _ ht.1.2⟩, hcell _ ht.2⟩

theorem checkWinFor_boardPut_other (s : State) (idx : Int) (p q : Player) (hpq : p ≠ q)
    (h : checkWinFor (s.boardPut idx p.toCell).board q = true) :
    checkWinFor s.board q = true := by
  unfold State.boardPut at h
  by_cases h0 : 0 ≤ idx
  · rw [if_pos h0] at h
    exact checkWinFor_arraySet_other s.board idx.toNat p q hpq h
  · rw [if_neg h0] at h
    exact h

theorem linesInv_of_no_line (s : State) (hX : checkWinFor s.board Player.X = false)
    (hO : checkWinFor s.board Player.O = false) : LinesInv s :=
  ⟨fun _ => ⟨hX, hO⟩, fun h => by rw [hX] at h; cases h.1⟩

theorem bool_eq_false_of_not_true {b : Bool} (h : ¬ b = true) : b = false := by
  cases b
  · rfl
  · exact absurd rfl h

/-- When a board without lines gets one mark of `p`, the other player still
has no line, so `LinesInv` holds as soon as a win ends the game. -/
theorem linesInv_after_mark (r : State) (b1 : Board) (p : Player)
    (hb : r.board = b1)
    (hother : ∀ q, p ≠ q → checkWinFor b1 q = false)
    (hstop : (checkWinFor b1 Player.X || checkWinFor b1 Player.O) = true →
      r.gameActive = false) : LinesInv r := by
  rw [LinesInv, hb]
  refine ⟨fun hact => ?_, fun hboth => ?_⟩
  · have hw : ¬ (checkWinFor b1 Player.X || checkWinFor b1 Player.O) = true := fun h => by
      rw [hstop h] at hact; cases hact
    rw [Bool.or_eq_true] at hw
    exact ⟨bool_eq_false_of_not_true (fun h => hw (Or.inl h)),
      bool_eq_false_of_not_true (fun h => hw (Or.inr h))⟩
  · cases p with
    | X => rw [hother Player.O (by decide)] at hboth; cases hboth.2
    | O => rw [hother Player.X (by decide)] at hboth; cases hboth.1

theorem applyStep_linesInv (s : State) (step : GameStep) (hinv : LinesInv s) :
    LinesInv (applyStep s step) := by
  cases step with
  | init m =>
    have hboard : (applyStep s (GameStep.init m)).board = List.replicate 9 Cell.empty := rfl
    have hX : checkWinFor (List.replicate 9 Cell.empty) Player.X = false := by decide
    have hO : checkWinFor (List.replicate 9 Cell.empty) Player.O = false := by decide
    exact linesInv_of_no_line _ (hboard ▸ hX) (hboard ▸ hO)
  | click idx =>
    show LinesInv (onCellClick s idx).1
    by_cases hrej : (!s.gameActive || (s.boardGet idx).truthy) = true
    · have : onCellClick s idx = (s, false) := by
        unfold onCellClick
        rw [if_pos hrej]
      rw [this]
      exact hinv
    · have hrej' := bool_eq_false_of_not_true hrej
      rw [Bool.or_eq_false_iff] at hrej'
      have hact : s.gameActive = true := by simpa using hrej'.1
      obtain ⟨hX, hO⟩ := hinv.1 hact
      obtain ⟨hb, _, _, hstop, _⟩ := onCellClick_accepted_fields s idx hact hrej'.2
      refine linesInv_after_mark _ _ s.currentPlayer hb (fun q hq => ?_)
        (fun h => (hstop (Or.inl h)).1)
      apply bool_eq_false_of_not_true
      intro hc
      have := checkWinFor_boardPut_other s idx s.currentPlayer q hq hc
      cases q with
      | X => rw [hX] at this; cases this
      | O => rw [hO] at this; cases this
  | ai =>
    show LinesInv (aiMove s)
    obtain ⟨m, hm, _, hterm, hnt⟩ := minimax_spec s.board Player.O
    by_cases hT : checkWinFor s.board Player.X = true ∨ checkWinFor s.board Player.O = true ∨
        availSpots s.board = []
    · obtain ⟨hb, _, _, hstop, _⟩ := aiMove_fields_none s m _ hm (hterm hT)
      rw [LinesInv, hb]
      refine ⟨fun hact => ?_, hinv.2⟩
      exfalso
      have hga : (aiMove s).gameActive = false := by
        apply hstop
        rcases hT with h | h | h
        · left; rw [h]; rfl
        · left; rw [h]; exact Bool.or_true _
        · right
          apply Classical.byContradiction
          intro hf
          have := (boardFull_eq_false_iff _).mp (bool_eq_false_of_not_true hf)
          exact (availSpots_ne_nil_iff.mpr this) h
      rw [hga] at hact; cases hact
    · have hX : checkWinFor s.board Player.X = false :=
        bool_eq_false_of_not_true (fun h => hT (Or.inl h))
      have hO : checkWinFor s.board Player.O = false :=
        bool_eq_false_of_not_true (fun h => hT (Or.inr (Or.inl h)))
      have hA : availSpots s.board ≠ [] := fun h => hT (Or.inr (Or.inr h))
      obtain ⟨pre, j, post, _, hidx, _, _⟩ := hnt hX hO hA
      obtain ⟨hb, _, _, hstop, _⟩ := aiMove_fields s m _ j hm hidx
      refine linesInv_after_mark _ _ Player.O hb (fun q hq => ?_)
        (fun h => hstop (Or.inl h))
      apply bool_eq_false_of_not_true
      intro hc
      have := checkWinFor_arraySet_other s.board j Player.O q hq hc
      cases q with
      | X => rw [hX] at this; cases this
      | O => exact hq rfl

theorem runSteps_linesInv (steps : List GameStep) (s : State) (hinv : LinesInv s) :
    LinesInv (runSteps s steps) := by
  induction steps generalizing s with
  | nil => exact hinv
  | cons step rest ih => exact ih _ (applyStep_linesInv s step hinv)

/-- C14: in every state reached from the loaded page by any sequence of
`initGame`, `onCellClick` and `aiMove` steps, `checkWinFor` is never true for
both players; and whenever the game is active it is true for neither. -/
theorem at_most_one_winner (steps : List GameStep) :
    ¬ (checkWinFor (runSteps State.initial steps).board Player.X = true ∧
        checkWinFor (runSteps State.initial steps).board Player.O = true) ∧
    ((runSteps State.initial steps).gameActive = true →
      checkWinFor (runSteps State.initial steps).board Player.X = false ∧
        checkWinFor (runSteps State.initial steps).board Player.O = false) := by
  have h := runSteps_linesInv steps State.initial
    (linesInv_of_no_line _ (by decide) (by decide))
  exact ⟨h.2, h.1⟩

/-! ## The deferred AI reply -/

/-- On a board without lines and with an empty cell, `aiMove` marks one empty
cell with O. -/
theorem aiMove_marks_one (s : State) (hX : checkWinFor s.board Player.X = false)
    (hO : checkWinFor s.board Player.O = false) (he : Cell.empty ∈ s.board) :
    ∃ j, getCell s.board j = Cell.empty ∧ (aiMove s).board = s.board.set j Cell.O := by
  obtain ⟨m, j, hm, hidx, hj, _, _, _⟩ := minimax_first_extremal s.board Player.O hX hO he
  obtain ⟨hb, _⟩ := aiMove_fields s m _ j hm hidx
  have hlt : j < s.board.length := lt_length_of_getCell hj (by decide)
  refine ⟨j, hj, ?_⟩
  rw [hb]
  simp only [arraySet, hlt, if_true]

theorem countMarks_set_empty (b : Board) (j : Nat) (p q : Player)
    (hj : getCell b j = Cell.empty) :
    countMarks (b.set j p.toCell) q = countMarks b q + (if p = q then 1 else 0) := by
  have hlt : j < b.length := lt_length_of_getCell hj (by decide)
  have hcell : b[j] = Cell.empty := by
    simpa [getCell, List.getD_eq_getElem?_getD, hlt] using hj
  unfold countMarks
  rw [List.count_set _ _ _ _ hlt, hcell]
  cases p <;> cases q <;> simp [Player.toCell]

/-- C15 fails on the code.  In AI mode, click cell 0, click cell 1 before the
scheduled `aiMove` fires, then let it fire: the second click is accepted and
stores an O, and the AI stores another, so the board holds one X and two O.
Likewise, click cell 0, restart, then let the scheduled `aiMove` fire: the
first mark on the fresh board is an O. -/
theorem deferred_aiMove_breaks_alternation :
    (countMarks (Page.loaded.run [PageEvent.chooseMode Mode.ai, PageEvent.click 0,
        PageEvent.click 1, PageEvent.timerFires]).state.board Player.X = 1 ∧
      countMarks (Page.loaded.run [PageEvent.chooseMode Mode.ai, PageEvent.click 0,
        PageEvent.click 1, PageEvent.timerFires]).state.board Player.O = 2) ∧
    (countMarks (Page.loaded.run [PageEvent.chooseMode Mode.ai, PageEvent.click 0,
        PageEvent.restart, PageEvent.timerFires]).state.board Player.X = 0 ∧
      countMarks (Page.loaded.run [PageEvent.chooseMode Mode.ai, PageEvent.click 0,
        PageEvent.restart, PageEvent.timerFires]).state.board Player.O = 1) := by
  constructor
  · have hrun : Page.loaded.run [PageEvent.chooseMode Mode.ai, PageEvent.click 0,
        PageEvent.click 1, PageEvent.timerFires] =
        { state := aiMove (Page.loaded.run [PageEvent.chooseMode Mode.ai, PageEvent.click 0,
            PageEvent.click 1]).state, timers := 0 } := by
      rfl
    have hboard : (Page.loaded.run [PageEvent.chooseMode Mode.ai, PageEvent.click 0,
        PageEvent.click 1]).state.board =
        [Cell.X, Cell.O, Cell.empty, Cell.empty, Cell.empty, Cell.empty, Cell.empty,
          Cell.empty, Cell.empty] := by
      rfl
    rw [hrun]
    generalize (Page.loaded.run [PageEvent.chooseMode Mode.ai, PageEvent.click 0,
        PageEvent.click 1]).state = s at hboard
    obtain ⟨j, hj, hb⟩ := aiMove_marks_one s (by rw [hboard]; decide) (by rw [hboard]; decide)
      (by rw [hboard]; decide)
    show countMarks (aiMove s).board Player.X = 1 ∧ countMarks (aiMove s).board Player.O = 2
    rw [hb, show Cell.O = Player.O.toCell from rfl, countMarks_set_empty _ _ _ _ hj,
      countMarks_set_empty _ _ _ _ hj, hboard]
    decide
  · have hrun : Page.loaded.run [PageEvent.chooseMode Mode.ai, PageEvent.click 0,
        PageEvent.restart, PageEvent.timerFires] =
        { state := aiMove (Page.loaded.run [PageEvent.chooseMode Mode.ai, PageEvent.click 0,
            PageEvent.restart]).state, timers := 0 } := by
      rfl
    have hboard : (Page.loaded.run [PageEvent.chooseMode Mode.ai, PageEvent.click 0,
        PageEvent.restart]).state.board = List.replicate 9 Cell.empty := by
      rfl
    rw [hrun]
    generalize (Page.loaded.run [PageEvent.chooseMode Mode.ai, PageEvent.click 0,
        PageEvent.restart]).state = s at hboard
    obtain ⟨j, hj, hb⟩ := aiMove_marks_one s (by rw [hboard]; decide) (by rw [hboard]; decide)
      (by rw [hboard]; decide)
    show countMarks (aiMove s).board Player.X = 0 ∧ countMarks (aiMove s).board Player.O = 1
    rw [hb, show Cell.O = Player.O.toCell from rfl, countMarks_set_empty _ _ _ _ hj,
      countMarks_set_empty _ _ _ _ hj, hboard]
    decide

/-! ## The AI reply and the frame of the search -/

/-- C16: `aiMove` applies exactly the engine's move.  On a board without a
winning line and with an empty cell, it sets the empty cell
`minimax(board, O).idx` to O and leaves the other cells unchanged; afterwards
the game is inactive if O has a line or the board is full, and otherwise it is
X's turn.  On a board that has a winning line or no empty cell, it leaves the
board unchanged. -/
theorem aiMove_applies_engine_move (s : State) :
    (checkWinFor s.board Player.X = false → checkWinFor s.board Player.O = false →
      Cell.empty ∈ s.board →
      ∃ m j, minimax s.board Player.O = some (m, s.board) ∧ m.idx = some j ∧
        getCell s.board j = Cell.empty ∧
        (aiMove s).board = s.board.set j Cell.O ∧
        getCell (aiMove s).board j = Cell.O ∧
        (∀ k, k ≠ j → getCell (aiMove s).board k = getCell s.board k) ∧
        ((checkWinFor (aiMove s).board Player.O = true ∨ boardFull (aiMove s).board = true) →
          (aiMove s).gameActive = false) ∧
        (checkWinFor (aiMove s).board Player.O = false →
          boardFull (aiMove s).board = false →
          (aiMove s).currentPlayer = Player.X ∧ (aiMove s).gameActive = s.gameActive)) ∧
    ((checkWinFor s.board Player.X = true ∨ checkWinFor s.board Player.O = true ∨
        Cell.empty ∉ s.board) →
      (aiMove s).board = s.board) := by
  constructor
  · intro hX hO he
    obtain ⟨m, j, hm, hidx, hj, _, _, _⟩ := minimax_first_extremal s.board Player.O hX hO he
    obtain ⟨hb, _, _, hstop, hgo⟩ := aiMove_fields s m _ j hm hidx
    have hlt : j < s.board.length := lt_length_of_getCell hj (by decide)
    have hset : arraySet s.board j Cell.O = s.board.set j Cell.O := by
      simp only [arraySet, hlt, if_true]
    rw [hset] at hb hstop hgo
    have hX1 : checkWinFor (s.board.set j Cell.O) Player.X = false := by
      apply bool_eq_false_of_not_true
      intro hc
      have := checkWinFor_set_other s.board j Player.O Player.X (by decide) hc
      rw [hX] at this; cases this
    refine ⟨m, j, hm, hidx, hj, hb, ?_, ?_, ?_, ?_⟩
    · rw [hb]; exact getCell_set_self _ _ _ hlt
    · intro k hk
      rw [hb]; exact getCell_set_other _ _ _ _ (Ne.symm hk)
    · rw [hb]
      rintro (h | h)
      · exact hstop (Or.inl (by rw [h]; exact Bool.or_true _))
      · exact hstop (Or.inr h)
    · rw [hb]
      intro h1 h2
      have := hgo (by rw [hX1, h1]; rfl) h2
      exact ⟨this.2, this.1⟩
  · intro hT
    obtain ⟨m, hm, _, hterm, _⟩ := minimax_spec s.board Player.O
    have hT' : checkWinFor s.board Player.X = true ∨ checkWinFor s.board Player.O = true ∨
        availSpots s.board = [] := by
      rcases hT with h | h | h
      · exact Or.inl h
      · exact Or.inr (Or.inl h)
      · right; right
        apply Classical.byContradiction
        intro hne
        exact h (availSpots_ne_nil_iff.mp hne)
    exact (aiMove_fields_none s m _ hm (hterm hT')).1

theorem aiMove_applies_engine_move_witness :
    (checkWinFor blockState.board Player.X = false ∧
      checkWinFor blockState.board Player.O = false ∧ Cell.empty ∈ blockState.board) ∧
    ∃ m j, minimax blockState.board Player.O = some (m, blockState.board) ∧ m.idx = some j ∧
      getCell blockState.board j = Cell.empty ∧
      (aiMove blockState).board = blockState.board.set j Cell.O ∧
      getCell (aiMove blockState).board j = Cell.O ∧
      (∀ k, k ≠ j → getCell (aiMove blockState).board k = getCell blockState.board k) ∧
      ((checkWinFor (aiMove blockState).board Player.O = true ∨
          boardFull (aiMove blockState).board = true) →
        (aiMove blockState).gameActive = false) ∧
      (checkWinFor (aiMove blockState).board Player.O = false →
        boardFull (aiMove blockState).board = false →
        (aiMove blockState).currentPlayer = Player.X ∧
          (aiMove blockState).gameActive = blockState.gameActive) :=
  ⟨⟨by decide, by decide, by decide⟩,
    (aiMove_applies_engine_move blockState).1 (by decide) (by decide) (by decide)⟩

/-- C19: `minimax` leaves its argument unchanged.  For every board and player
the search returns, and the array it hands back is the array it was given;
this holds for every recursion bound above the number of empty cells, hence for
every recursive call.  The search has no access to the game state: `aiMove`
leaves the mode alone and changes the board in at most the one cell it writes
after the search. -/
theorem minimax_leaves_board_unchanged (b : Board) (p : Player) :
    (∃ m, minimax b p = some (m, b)) ∧
    (∀ fuel, countEmpty b < fuel → ∃ m, minimaxAux fuel b p = some (m, b)) ∧
    (∀ i, getCell b i = Cell.empty → (b.set i p.toCell).set i Cell.empty = b) ∧
    (∀ s : State, (aiMove s).mode = s.mode ∧ (aiMove s).boardProps = s.boardProps ∧
      ((aiMove s).board = s.board ∨
        ∃ j, getCell s.board j = Cell.empty ∧ (aiMove s).board = s.board.set j Cell.O)) := by
  refine ⟨?_, ?_, fun i hi => set_restore b i _ hi, ?_⟩
  · obtain ⟨m, hm, _⟩ := minimax_spec b p
    exact ⟨m, hm⟩
  · intro fuel hfuel
    obtain ⟨m, hm, _⟩ := minimaxAux_spec fuel b p hfuel
    exact ⟨m, hm⟩
  · intro s
    obtain ⟨m, hm, _, hterm, hnt⟩ := minimax_spec s.board Player.O
    cases hidx : m.idx with
    | none =>
      obtain ⟨hb, hmode, hp, _, _⟩ := aiMove_fields_none s m _ hm hidx
      exact ⟨hmode, hp, Or.inl hb⟩
    | some j =>
      obtain ⟨hb, hmode, hp, _, _⟩ := aiMove_fields s m _ j hm hidx
      refine ⟨hmode, hp, Or.inr ⟨j, ?_⟩⟩
      have hj : getCell s.board j = Cell.empty := by
        by_cases hT : checkWinFor s.board Player.X = true ∨
            checkWinFor s.board Player.O = true ∨ availSpots s.board = []
        · rw [hterm hT] at hidx; cases hidx
        · have hX : checkWinFor s.board Player.X = false :=
            bool_eq_false_of_not_true (fun h => hT (Or.inl h))
          have hO : checkWinFor s.board Player.O = false :=
            bool_eq_false_of_not_true (fun h => hT (Or.inr (Or.inl h)))
          obtain ⟨pre, i, post, hsplit, hi, _, _⟩ := hnt hX hO (fun h => hT (Or.inr (Or.inr h)))
          rw [hidx] at hi
          cases hi
          exact mem_availSpots.mp (by rw [hsplit]; simp)
      have hlt : j < s.board.length := lt_length_of_getCell hj (by decide)
      refine ⟨hj, ?_⟩
      rw [hb]
      simp only [arraySet, hlt, if_true]

/-! ## Termination and the size of the search -/

theorem movesLoopCounted_erase
    (search : Board → Player → Option (Move × Board))
    (searchC : Board → Player → Option (Move × Board × Nat × Nat))
    (h : ∀ b p, dropCounts (searchC b p) = search b p) (player : Player)
    (rest : List Nat) (b : Board) (moves : List Move) (leaves depth : Nat) :
    dropCounts (movesLoopCounted searchC player rest b moves leaves depth) =
      movesLoop search player rest b moves := by
  induction rest generalizing b moves leaves depth with
  | nil => rfl
  | cons idx rest ih =>
    simp only [movesLoopCounted, movesLoop]
    have hcall : dropCounts (if player = Player.O then searchC (b.set idx player.toCell) Player.X
        else searchC (b.set idx player.toCell) Player.O) =
        (if player = Player.O then search (b.set idx player.toCell) Player.X
          else search (b.set idx player.toCell) Player.O) := by
      split <;> exact h _ _
    rw [← hcall]
    cases hres : (if player = Player.O then searchC (b.set idx player.toCell) Player.X
        else searchC (b.set idx player.toCell) Player.O) with
    | none => rfl
    | some r =>
      obtain ⟨m, after, l, d⟩ := r
      exact ih _ _ _ _

/-- The instrumented search computes what `minimaxAux` computes. -/
theorem minimaxCounted_erase (fuel : Nat) (b : Board) (p : Player) :
    dropCounts (minimaxCounted fuel b p) = minimaxAux fuel b p := by
  induction fuel generalizing b p with
  | zero => rfl
  | succ n ih =>
    rw [minimaxCounted, minimaxAux]
    by_cases hX : checkWinFor b Player.X = true
    · simp only [hX, if_true]; rfl
    by_cases hO : checkWinFor b Player.O = true
    · simp only [hX, hO, if_true, if_false]; rfl
    by_cases hA : (availSpots b).length = 0
    · simp only [hX, hO, hA, if_true, if_false]; rfl
    simp only [hX, hO, hA, if_false]
    have hloop := movesLoopCounted_erase (minimaxAux n) (minimaxCounted n) ih p
      (availSpots b) b [] 0 0
    rw [← hloop]
    cases hres : movesLoopCounted (minimaxCounted n) p (availSpots b) b [] 0 0 with
    | none => rfl
    | some r =>
      obtain ⟨moves, after, l, d⟩ := r
      simp only [dropCounts, Option.map_some']
      cases hbest : (if p = Player.O then pickMax moves none none else pickMin moves none none) with
      | none => rfl
      | some m => rfl

/-- The counters after the loop: with every recursive call returning its array
unchanged, at most `c` base-case evaluations and depth at most `k`, the loop
adds at most `c` evaluations per spot and reaches depth at most `k + 1`. -/
theorem movesLoopCounted_bounds
    (searchC : Board → Player → Option (Move × Board × Nat × Nat)) (p : Player) (b : Board)
    (c k : Nat) (rest : List Nat) (moves : List Move) (leaves depth : Nat)
    (hrest : ∀ i ∈ rest, getCell b i = Cell.empty)
    (hs : ∀ i ∈ rest, ∃ m l d, searchC (b.set i p.toCell) p.other =
      some (m, b.set i p.toCell, l, d) ∧ l ≤ c ∧ d ≤ k) :
    ∃ ms l d, movesLoopCounted searchC p rest b moves leaves depth = some (ms, b, l, d) ∧
      l ≤ leaves + rest.length * c ∧ d ≤ max depth (k + 1) := by
  induction rest generalizing moves leaves depth with
  | nil => exact ⟨moves, leaves, depth, rfl, by simp, le_max_left _ _⟩
  | cons i rest ih =>
    obtain ⟨m, l, d, hm, hl, hd⟩ := hs i (List.mem_cons_self _ _)
    have hcall : (if p = Player.O then searchC (b.set i p.toCell) Player.X
        else searchC (b.set i p.toCell) Player.O) = some (m, b.set i p.toCell, l, d) := by
      cases p
      · simpa [Player.other] using hm
      · simpa [Player.other] using hm
    have hback : (b.set i p.toCell).set i Cell.empty = b :=
      set_restore b i p.toCell (hrest i (List.mem_cons_self _ _))
    obtain ⟨ms, l2, d2, hloop, hl2, hd2⟩ := ih (moves ++ [{ idx := some i, score := m.score }])
      (leaves + l) (max depth (d + 1))
      (fun j hj => hrest j (List.mem_cons_of_mem _ hj))
      (fun j hj => hs j (List.mem_cons_of_mem _ hj))
    refine ⟨ms, l2, d2, ?_, ?_, ?_⟩
    · simp only [movesLoopCounted, hcall, hback]
      exact hloop
    · simp only [List.length_cons]
      have : (rest.length + 1) * c = rest.length * c + c := by ring
      omega
    · have h1 : max depth (d + 1) ≤ max depth (k + 1) := max_le_max (le_refl _) (by omega)
      exact le_trans hd2 (max_le h1 (le_max_right _ _))

theorem availSpots_append_singleton (b : Board) (c : Cell) :
    availSpots (b ++ [c]) = availSpots b ++ (if c = Cell.empty then [b.length] else []) := by
  unfold availSpots
  rw [List.length_append, List.length_singleton, List.range_succ, List.filter_append]
  congr 1
  · apply List.filter_congr
    intro i hi
    have hi' : i < b.length := List.mem_range.mp hi
    simp [getCell, List.getD_eq_getElem?_getD, List.getElem?_append_left hi']
  · have : getCell (b ++ [c]) b.length = c := by
      simp [getCell, List.getD_eq_getElem?_getD]
    rw [List.filter_cons, List.filter_nil, this]
    by_cases hc : c = Cell.empty
    · simp [hc]
    · simp [hc]

/-- The spots `minimax` loops over are as many as there are empty cells. -/
theorem availSpots_length (b : Board) : (availSpots b).length = countEmpty b := by
  induction b using List.reverseRecOn with
  | nil => rfl
  | append_singleton b c ih =>
    rw [availSpots_append_singleton, List.length_append, ih]
    unfold countEmpty
    rw [List.count_append]
    by_cases hc : c = Cell.empty
    · simp [hc]
    · simp [hc, List.count_cons]

/-- The instrumented search returns for every bound above the number `k` of
empty cells, with recursion depth at most `k` and at most `k!` base-case
evaluations. -/
theorem minimaxCounted_bounds (fuel : Nat) (b : Board) (p : Player)
    (h : countEmpty b < fuel) :
    ∃ m l d, minimaxCounted fuel b p = some (m, b, l, d) ∧
      l ≤ (countEmpty b).factorial ∧ d ≤ countEmpty b := by
  induction fuel generalizing b p with
  | zero => omega
  | succ n ih =>
    rw [minimaxCounted]
    by_cases hX : checkWinFor b Player.X = true
    · exact ⟨⟨none, -10⟩, 1, 0, by simp [hX], Nat.factorial_pos _, Nat.zero_le _⟩
    by_cases hO : checkWinFor b Player.O = true
    · exact ⟨⟨none, 10⟩, 1, 0, by simp [hX, hO], Nat.factorial_pos _, Nat.zero_le _⟩
    by_cases hA : (availSpots b).length = 0
    · exact ⟨⟨none, 0⟩, 1, 0, by simp [hX, hO, hA], Nat.factorial_pos _, Nat.zero_le _⟩
    simp only [hX, hO, hA, if_false]
    have hk : 0 < countEmpty b := by
      rw [← availSpots_length]; omega
    obtain ⟨k, hk'⟩ : ∃ k, countEmpty b = k + 1 := ⟨countEmpty b - 1, by omega⟩
    have hchild : ∀ i ∈ availSpots b, ∃ m l d, minimaxCounted n (b.set i p.toCell) p.other =
        some (m, b.set i p.toCell, l, d) ∧ l ≤ k.factorial ∧ d ≤ k := by
      intro i hi
      have hc := count_set_of_empty b i p.toCell (mem_availSpots.mp hi)
        (Player.toCell_ne_empty p)
      have hck : countEmpty (b.set i p.toCell) = k := by omega
      obtain ⟨m, l, d, hm, hl, hd⟩ := ih (b.set i p.toCell) p.other (by omega)
      rw [hck] at hl hd
      exact ⟨m, l, d, hm, hl, hd⟩
    obtain ⟨ms, l, d, hloop, hl, hd⟩ := movesLoopCounted_bounds (minimaxCounted n) p b
      k.factorial k (availSpots b) [] 0 0 (fun i hi => mem_availSpots.mp hi) hchild
    rw [hloop]
    simp only
    -- the loop result agrees with the plain search, which returns
    have herase := minimaxCounted_erase (n + 1) b p
    obtain ⟨m, hm, _⟩ := minimaxAux_spec (n + 1) b p h
    rw [minimaxCounted, hm] at herase
    simp only [hX, hO, hA, if_false, hloop] at herase
    cases hbest : (if p = Player.O then pickMax ms none none else pickMin ms none none) with
    | none =>
      rw [hbest] at herase
      simp [dropCounts] at herase
    | some m' =>
      refine ⟨m', l, d, rfl, ?_, ?_⟩
      · rw [hk', Nat.factorial_succ, ← hk', ← availSpots_length]
        simpa using hl
      · rw [hk']
        simpa using hd

/-- C20: `minimax` terminates on every board and for every player.  Each
recursive call is made on a board with exactly one empty cell fewer, so with
`k` empty cells a recursion bound of `k + 1` is never reached; the instrumented
search, which computes what `minimax` computes, reports a recursion depth of at
most `k` and at most `k!` base-case evaluations; on a 9-cell board `k ≤ 9` and
the evaluations number at most `9! = 362880`. -/
theorem minimax_terminates_within_bounds (b : Board) (p : Player) :
    (∃ m leaves depth,
      minimaxCounted (b.length + 1) b p = some (m, b, leaves, depth) ∧
        minimax b p = some (m, b) ∧
        depth ≤ countEmpty b ∧ leaves ≤ (countEmpty b).factorial ∧
        (b.length = 9 → leaves ≤ 362880)) ∧
    (∃ m, minimaxAux (countEmpty b + 1) b p = some (m, b)) ∧
    (∀ i, getCell b i = Cell.empty → countEmpty (b.set i p.toCell) + 1 = countEmpty b) ∧
    (b.length = 9 → countEmpty b ≤ 9) := by
  refine ⟨?_, ?_, fun i hi => count_set_of_empty b i _ hi (Player.toCell_ne_empty p),
    fun h9 => h9 ▸ countEmpty_le_length b⟩
  · obtain ⟨m, l, d, hm, hl, hd⟩ := minimaxCounted_bounds (b.length + 1) b p
      (Nat.lt_succ_of_le (countEmpty_le_length b))
    refine ⟨m, l, d, hm, ?_, hd, hl, fun h9 => ?_⟩
    · have herase := minimaxCounted_erase (b.length + 1) b p
      rw [hm] at herase
      exact herase.symm
    · have hk : countEmpty b ≤ 9 := h9 ▸ countEmpty_le_length b
      have hf : (countEmpty b).factorial ≤ Nat.factorial 9 := Nat.factorial_le hk
      have h9f : Nat.factorial 9 = 362880 := by decide
      omega
  · obtain ⟨m, hm, _⟩ := minimaxAux_spec (countEmpty b + 1) b p (Nat.lt_succ_self _)
    exact ⟨m, hm⟩

end TicTacToe
